import Mathlib

/-!
# Verification of the go_query_api query-generation core

Shallow embedding of the Go sources (`internal/services/field_service.go`,
`internal/services/query_service.go`, `internal/models/field.go`) and proofs of
the specification claims about them.

Modelling conventions:
* Go `map[string]V` is modelled as an association list `List (String × V)`;
  assignment `m[k] = v` replaces the binding in place (`aset`), lookup is
  `alookup`.  Where a claim depends on Go's (randomized, unspecified) map
  iteration order, the enumeration of the keys is passed in as an explicit
  parameter together with a validity predicate (`validEnum`).
* Go `float64` scores are modelled as exact rationals `ℚ`.
* Go runtime panics (out-of-range string slicing, indexing an empty slice)
  are modelled by the `panicked` constructor of `GoResult`.
* `strings.Contains` / `strings.ToLower` are modelled character-wise
  (`goContains`, `goToLower`).
-/

/-- Association-list lookup, modelling Go map read `m[k]`. -/
def alookup {β : Type} (k : String) : List (String × β) → Option β
  | [] => none
  | (k', v) :: rest => if k = k' then some v else alookup k rest

/-- Association-list update, modelling Go map assignment `m[k] = v`. -/
def aset {β : Type} (m : List (String × β)) (k : String) (v : β) : List (String × β) :=
  match m with
  | [] => [(k, v)]
  | (k', v') :: rest => if k = k' then (k, v) :: rest else (k', v') :: aset rest k v

/-- Does `hay` start with `needle`?  (Helper for substring containment.) -/
def listStartsWith : List Char → List Char → Bool
  | _, [] => true
  | [], _ :: _ => false
  | a :: as, b :: bs => a = b && listStartsWith as bs

/-- Contiguous-substring test on character lists. -/
def listHasSub : List Char → List Char → Bool
  | hay, needle =>
    listStartsWith hay needle ||
      match hay with
      | [] => false
      | _ :: t => listHasSub t needle

/-- Model of Go `strings.Contains s sub`. -/
def goContains (s sub : String) : Bool :=
  listHasSub s.toList sub.toList

/-- ASCII lower-casing of one character (the case mapping relevant to the
cue words and keywords of this program). -/
def charToLower (c : Char) : Char :=
  if 'A' ≤ c ∧ c ≤ 'Z' then Char.ofNat (c.toNat + 32) else c

/-- Model of Go `strings.ToLower` (character-wise lower-casing). -/
def goToLower (s : String) : String :=
  ⟨s.data.map charToLower⟩

/-- Model of the `math.Min` helper in `query_service.go`. -/
def goMin (a b : ℚ) : ℚ := if a < b then a else b

/-- Model of Go string slicing `s[0:1]`: `none` models the runtime panic on an
empty string. -/
def slice01 (s : String) : Option String :=
  if s.isEmpty then none else some (s.take 1)

/-- `models.Field` (named `FieldDef` here: `Field` collides with Mathlib) from `internal/models/field.go`. -/
structure FieldDef where
  ColumnName : String
  TableName : String
  SystemAFieldMap : String
  SystemBFieldMap : String
  Description : String
  FieldType : String
  JoinKey : String
  ForeignTable : String
  ForeignKey : String
deriving DecidableEq

/-- `models.FieldMatch`; the float64 score is modelled as `ℚ`. -/
structure FieldMatch where
  ColumnName : String
  TableName : String
  FieldDescription : String
  MatchScore : ℚ
deriving DecidableEq

/-- `models.Join`. -/
structure Join where
  From : String
  To : String
  Condition : String
deriving DecidableEq

/-- Outcome of a Go function that may return a value, return an error, or
panic at runtime. -/
inductive GoResult (α : Type) where
  | ok (a : α)
  | goError (msg : String)
  | panicked
deriving DecidableEq

/-- The relationship graph: `map[string]map[string]models.Join`. -/
abbrev Graph := List (String × List (String × Join))

/-- Adjacency list of a table (empty when the table is not a node). -/
def adjOf (g : Graph) (a : String) : List (String × Join) :=
  (alookup a g).getD []

/-- Adjacency test (boolean). -/
def adjB (g : Graph) (a b : String) : Bool :=
  (alookup b (adjOf g a)).isSome

/-- Adjacency relation of the relationship graph. -/
def Adj (g : Graph) (a b : String) : Prop := adjB g a b = true

instance (g : Graph) (a b : String) : Decidable (Adj g a b) := by
  unfold Adj; infer_instance

/-- The join condition string `"<table>.<column> = <foreignTable>.<foreignKey>"`. -/
def edgeCondition (f : FieldDef) : String :=
  f.TableName ++ "." ++ f.ColumnName ++ " = " ++ f.ForeignTable ++ "." ++ f.ForeignKey

/-- Create the node for table `t` if it does not exist
(`s.relationshipGraph[t] = make(...)`). -/
def ensureNode (g : Graph) (t : String) : Graph :=
  match alookup t g with
  | some _ => g
  | none => g ++ [(t, [])]

/-- Assignment `g[a][b] = j` (node `a` assumed present; no-op otherwise). -/
def setAdj (g : Graph) (a b : String) (j : Join) : Graph :=
  match g with
  | [] => []
  | e :: rest =>
    (if e.1 = a then (e.1, aset e.2 b j) else e) :: setAdj rest a b j

/-- Processing of one field by `buildRelationshipGraph`. -/
def addFieldEdge (g : Graph) (f : FieldDef) : Graph :=
  if f.ForeignTable = "" ∨ f.ForeignKey = "" then g
  else
    let g1 := ensureNode g f.TableName
    let g2 := ensureNode g1 f.ForeignTable
    let cond := edgeCondition f
    let g3 := setAdj g2 f.TableName f.ForeignTable ⟨f.TableName, f.ForeignTable, cond⟩
    setAdj g3 f.ForeignTable f.TableName ⟨f.ForeignTable, f.TableName, cond⟩

/-- `FieldService.buildRelationshipGraph`. -/
def buildRelationshipGraph (fields : List FieldDef) : Graph :=
  fields.foldl addFieldEdge []

/-- Does field `f` declare a foreign-key edge between the (unordered) pair of
tables `a`, `b`? -/
def declaresB (f : FieldDef) (a b : String) : Bool :=
  decide (f.ForeignTable ≠ "" ∧ f.ForeignKey ≠ "" ∧
    ((f.TableName = a ∧ f.ForeignTable = b) ∨ (f.TableName = b ∧ f.ForeignTable = a)))

/-- The last field of the catalog declaring an edge between tables `a` and `b`. -/
def lastDecl (fields : List FieldDef) (a b : String) : Option FieldDef :=
  fields.foldl (fun acc f => if declaresB f a b then some f else acc) none

/-- `QueryService.identifyQueryType`. -/
def identifyQueryType (description : String) : String × Bool :=
  let desc := goToLower description
  if goContains desc "count" || goContains desc "how many" || goContains desc "number of" then
    ("COUNT", false)
  else if goContains desc "group" || goContains desc "grouped" || goContains desc "per" then
    ("GROUP", false)
  else
    ("SELECT", goContains desc "distinct" || goContains desc "unique" || goContains desc "different")

/-- `FieldService.calculateMatchScore`. -/
def calculateMatchScore (description : String) (keywords : List String) : ℚ :=
  if keywords.length = 0 then 0
  else
    let d := goToLower description
    let matchedCount := keywords.countP (fun k => goContains d (goToLower k))
    (matchedCount : ℚ) / (keywords.length : ℚ) * 100

/-- One pass of the inner `j`-loop of `sortMatchesByScore`: the first argument
is the current value of slot `i`; a swap replaces it by the larger later
element and writes the old value back into the scanned slot. -/
def selectOnce : FieldMatch → List FieldMatch → FieldMatch × List FieldMatch
  | x, [] => (x, [])
  | x, y :: ys =>
    if x.MatchScore < y.MatchScore then
      let r := selectOnce y ys
      (r.1, x :: r.2)
    else
      let r := selectOnce x ys
      (r.1, y :: r.2)

/-- Outer `i`-loop of `sortMatchesByScore` (fuel = number of slots; the fuel is
always sufficient, see `sortGo_eq`). -/
def sortGo : Nat → List FieldMatch → List FieldMatch
  | 0, l => l
  | _ + 1, [] => []
  | fuel + 1, x :: xs =>
    let r := selectOnce x xs
    r.1 :: sortGo fuel r.2

/-- `sortMatchesByScore` (in-place bubble/selection sort, descending). -/
def sortMatchesByScore (l : List FieldMatch) : List FieldMatch :=
  sortGo l.length l

/-- `FieldService.FindFieldMatches`. -/
def FindFieldMatches (fields : List FieldDef) (keywords : List String) (threshold : ℚ)
    (maxMatches : Nat) : List FieldMatch :=
  let ms := fields.filterMap (fun f =>
    let score := calculateMatchScore f.Description keywords
    if score < threshold then none
    else some ⟨f.ColumnName, f.TableName, f.Description, score⟩)
  let sorted := sortMatchesByScore ms
  if sorted.length > maxMatches then sorted.take maxMatches else sorted

/-- `QueryService.calculateConfidence`. -/
def calculateConfidence (ms : List FieldMatch) : ℚ :=
  if ms.length = 0 then 0
  else
    let total := (ms.map (fun m => m.MatchScore)).sum
    let confidence := total / (ms.length : ℚ)
    let fieldCountFactor := goMin ((ms.length : ℚ) / 3) 1
    confidence * fieldCountFactor

/-! ## Breadth-first search (`bfsShortestPath`) -/

/-- Outcome of the BFS: a reconstructed node path, queue exhaustion (no path),
or a modelling artifact `stuck` (insufficient fuel / broken parent chain) that
is proved unreachable. -/
inductive BfsOut where
  | found (path : List String)
  | exhausted
  | stuck
deriving DecidableEq

/-- The neighbor-visiting loop body of `bfsShortestPath`: for each neighbor not
yet visited, mark it visited, record its parent and enqueue it. -/
def bfsVisit (current : String) : List (String × Join) → List String → List String →
    List (String × String) → List String × List String × List (String × String)
  | [], q, v, p => (q, v, p)
  | (nb, _) :: rest, q, v, p =>
    if nb ∈ v then bfsVisit current rest q v p
    else bfsVisit current rest (q ++ [nb]) (nb :: v) (aset p nb current)

/-- Path reconstruction of `bfsShortestPath`: walk the parent pointers from
`end` back to `start`, prepending.  Fuel bounds the chain length; a missing
parent pointer (impossible in reachable states) yields `none`. -/
def reconPath (parents : List (String × String)) (start : String) :
    Nat → String → List String → Option (List String)
  | 0, _, _ => none
  | fuel + 1, node, acc =>
    if node = start then some acc
    else
      match alookup node parents with
      | none => none
      | some pr => reconPath parents start fuel pr (pr :: acc)

/-- The main BFS loop of `bfsShortestPath`. -/
def bfsLoop (g : Graph) (start endT : String) :
    Nat → List String → List String → List (String × String) → BfsOut
  | 0, _, _, _ => .stuck
  | _ + 1, [], _, _ => .exhausted
  | fuel + 1, current :: qrest, v, p =>
    if current = endT then
      match reconPath p start v.length endT [endT] with
      | some path => .found path
      | none => .stuck
    else
      let s := bfsVisit current (adjOf g current) qrest v p
      bfsLoop g start endT fuel s.1 s.2.1 s.2.2

/-- All neighbor names occurring in the graph's adjacency lists (with
multiplicity); every node ever enqueued after the start is among them. -/
def candList : Graph → List String
  | [] => []
  | (_, adj) :: rest => adj.map Prod.fst ++ candList rest

/-- Number of not-yet-visited enqueueable nodes (fuel measure). -/
def unvisCount (g : Graph) (v : List String) : Nat :=
  (candList g).countP (fun c => decide (c ∉ v))

/-- `FieldService.bfsShortestPath` (the fuel is provably sufficient). -/
def bfsShortestPath (g : Graph) (start endT : String) : BfsOut :=
  bfsLoop g start endT ((candList g).length + 2) [start] [start] []

/-- Conversion of a node path to joins:
`joins = append(joins, s.relationshipGraph[path[i]][path[i+1]])`. -/
def pathToJoins (g : Graph) : List String → List Join
  | a :: b :: rest => (alookup b (adjOf g a)).getD ⟨"", "", ""⟩ :: pathToJoins g (b :: rest)
  | _ => []

/-- `FieldService.FindJoinPath`. -/
def FindJoinPath (g : Graph) (fromT toT : String) : GoResult (List Join) :=
  if fromT = toT then .ok []
  else if (alookup fromT g).isNone then
    .goError ("table " ++ fromT ++ " not found in relationship graph")
  else if (alookup toT g).isNone then
    .goError ("table " ++ toT ++ " not found in relationship graph")
  else
    match bfsShortestPath g fromT toT with
    | .found path => .ok (pathToJoins g path)
    | .exhausted => .goError ("no join path found between " ++ fromT ++ " and " ++ toT)
    | .stuck => .panicked

/-- A walk of a given edge count in the relationship graph. -/
inductive WalkLen (g : Graph) : String → String → Nat → Prop where
  | refl (u : String) : WalkLen g u u 0
  | snoc {u v w : String} {n : Nat} :
      WalkLen g u v n → Adj g v w → WalkLen g u w (n + 1)

/-- `joins` is a sequence of stored graph edges linking `a` to `b`. -/
def JoinSeqPath (g : Graph) : String → String → List Join → Prop
  | a, b, [] => a = b
  | a, b, j :: rest =>
    j.From = a ∧ alookup j.To (adjOf g a) = some j ∧ JoinSeqPath g j.To b rest

/-! ## SQL assembly (`buildSQLQuery`) -/

/-- `order` is a possible Go map-range enumeration of the key multiset of
`keys`: no duplicates and exactly the distinct keys. -/
def validEnum (keys order : List String) : Prop :=
  order.Nodup ∧ ∀ x, x ∈ order ↔ x ∈ keys

/-- The sequential `FindJoinPath` calls from the primary table to every other
table (`buildSQLQuery`, error wrapped as `failed to find join path: ...`). -/
def findAllJoins (g : Graph) (t0 : String) : List String → GoResult (List Join)
  | [] => .ok []
  | t :: ts =>
    match FindJoinPath g t0 t with
    | .ok js =>
      match findAllJoins g t0 ts with
      | .ok rest => .ok (js ++ rest)
      | r => r
    | .goError e => .goError ("failed to find join path: " ++ e)
    | .panicked => .panicked

/-- The value stored in the dedup map for condition `c`: the last join carrying
that condition (later map assignments overwrite earlier ones). -/
def lastCondJoin (joins : List Join) (c : String) : Option Join :=
  (joins.filter (fun j => j.Condition = c)).getLast?

/-- `deduplicateJoins`; `condOrder` is the map-range enumeration of the
distinct condition strings. -/
def deduplicateJoins (joins : List Join) (condOrder : List String) : List Join :=
  if joins.length ≤ 1 then joins
  else condOrder.filterMap (lastCondJoin joins)

/-- The joins for which `buildSQLQuery` actually emits a `JOIN` clause
(targets already introduced are skipped). -/
def emitJoins (seen : List String) : List Join → List Join
  | [] => []
  | j :: rest =>
    if j.To ∈ seen then emitJoins seen rest
    else j :: emitJoins (j.To :: seen) rest

/-- The JOIN-clause loop of `buildSQLQuery`; `none` models the slicing panic on
an empty target table name. -/
def joinClauseLoop (seen : List String) : List Join → Option (List String)
  | [] => some []
  | j :: rest =>
    if j.To ∈ seen then joinClauseLoop seen rest
    else
      match slice01 j.To with
      | none => none
      | some al =>
        match joinClauseLoop (j.To :: seen) rest with
        | none => none
        | some cs => some (("JOIN " ++ j.To ++ " " ++ al ++ " ON " ++ j.Condition) :: cs)

/-- The SELECT clause of `buildSQLQuery` (`m0` is `ms[0]`). -/
def selectClauseOf (m0 : FieldMatch) (ms : List FieldMatch) (queryType : String)
    (distinct : Bool) : String :=
  if queryType = "COUNT" then
    "COUNT(" ++ m0.TableName ++ "." ++ m0.ColumnName ++ ")"
  else if queryType = "GROUP" then
    m0.TableName ++ "." ++ m0.ColumnName ++ ", COUNT(*)"
  else
    let fs := ms.map (fun m => m.TableName ++ "." ++ m.ColumnName)
    if distinct then "DISTINCT " ++ String.intercalate ", " fs
    else String.intercalate ", " fs

/-- The join-planning block of `buildSQLQuery` (lines 151-165): one
`FindJoinPath` call per secondary table, then deduplication. -/
def planJoins (g : Graph) (t0 : String) (trest : List String) (condOrder : List String) :
    GoResult (List Join) :=
  if trest.isEmpty then .ok []
  else
    match findAllJoins g t0 trest with
    | .ok aj => .ok (deduplicateJoins aj condOrder)
    | .goError e => .goError e
    | .panicked => .panicked

/-- The clause-assembly block of `buildSQLQuery` (lines 167-260). -/
def assembleQuery (m0 : FieldMatch) (ms : List FieldMatch) (queryType : String)
    (distinct : Bool) (limit : Int) (t0 : String) (allJoins : List Join) :
    GoResult (String × List Join) :=
  let selectClause := selectClauseOf m0 ms queryType distinct
  match slice01 t0 with
  | none => .panicked
  | some al =>
    let fromClause := t0 ++ " " ++ al
    match joinClauseLoop [t0] allJoins with
    | none => .panicked
    | some joinClauses =>
      let groupByClause :=
        if queryType = "GROUP" then "GROUP BY " ++ m0.TableName ++ "." ++ m0.ColumnName
        else ""
      let limitClause := if limit > 0 then "LIMIT " ++ toString limit else ""
      let q1 := "SELECT " ++ selectClause ++ " FROM " ++ fromClause
      let q2 := if joinClauses.length > 0 then
          q1 ++ " " ++ String.intercalate " " joinClauses
        else q1
      let q3 := if groupByClause ≠ "" then q2 ++ " " ++ groupByClause else q2
      let q4 := if limitClause ≠ "" then q3 ++ " " ++ limitClause else q3
      .ok (q4, allJoins)

/-- `QueryService.buildSQLQuery`.  `tableOrder` is the map-range enumeration of
the required-table set, `condOrder` the one used inside `deduplicateJoins`. -/
def buildSQLQuery (g : Graph) (ms : List FieldMatch) (queryType : String)
    (distinct : Bool) (limit : Int) (tableOrder condOrder : List String) :
    GoResult (String × List Join) :=
  match ms with
  | [] => .goError "no field matches provided"
  | m0 :: _ =>
    match tableOrder with
    | [] => .panicked
    | t0 :: trest =>
      match planJoins g t0 trest condOrder with
      | .goError e => .goError e
      | .panicked => .panicked
      | .ok allJoins => assembleQuery m0 ms queryType distinct limit t0 allJoins

/-- Loop invariant of the BFS at the top of each iteration.  `lab` is a ghost
labelling of the discovered nodes by their BFS depth. -/
structure BfsInv (g : Graph) (start endT : String) (q v : List String)
    (p : List (String × String)) (lab : String → Nat) : Prop where
  startVis : start ∈ v
  startZero : lab start = 0
  queueSub : ∀ x ∈ q, x ∈ v
  queueNodup : q.Nodup
  reach : ∀ x ∈ v, WalkLen g start x (lab x)
  parentSpec : ∀ x ∈ v, x ≠ start →
    ∃ pr, alookup x p = some pr ∧ pr ∈ v ∧ Adj g pr x ∧ lab x = lab pr + 1
  procClosed : ∀ u ∈ v, u ∉ q → ∀ w, Adj g u w → w ∈ v ∧ lab w ≤ lab u + 1
  queueMono : q.Pairwise (fun x y => lab x ≤ lab y)
  spread : ∀ x ∈ q, ∀ y ∈ q, lab y ≤ lab x + 1
  procLe : ∀ u ∈ v, u ∉ q → ∀ y ∈ q, lab u ≤ lab y
  endFrontier : endT ∉ v ∨ endT ∈ q
  labBound : ∀ x ∈ v, lab x < v.length

/-- Invariant of the neighbor-scanning loop: `current` has been dequeued and
its neighbors in `rest` are still to be processed. -/
structure MidInv (g : Graph) (start endT current : String) (rest : List (String × Join))
    (q v : List String) (p : List (String × String)) (lab : String → Nat) : Prop where
  startVis : start ∈ v
  startZero : lab start = 0
  queueSub : ∀ x ∈ q, x ∈ v
  queueNodup : q.Nodup
  currentVis : current ∈ v
  currentNotQ : current ∉ q
  reach : ∀ x ∈ v, WalkLen g start x (lab x)
  parentSpec : ∀ x ∈ v, x ≠ start →
    ∃ pr, alookup x p = some pr ∧ pr ∈ v ∧ Adj g pr x ∧ lab x = lab pr + 1
  procClosed : ∀ u ∈ v, u ∉ q → u ≠ current → ∀ w, Adj g u w → w ∈ v ∧ lab w ≤ lab u + 1
  currentRest : ∀ w, Adj g current w →
    (∃ j, (w, j) ∈ rest) ∨ (w ∈ v ∧ lab w ≤ lab current + 1)
  queueMono : q.Pairwise (fun x y => lab x ≤ lab y)
  queueBand : ∀ y ∈ q, lab current ≤ lab y ∧ lab y ≤ lab current + 1
  procLe : ∀ u ∈ v, u ∉ q → u ≠ current → lab u ≤ lab current
  endFrontier : endT ∉ v ∨ endT ∈ q
  labBound : ∀ x ∈ v, lab x < v.length
  restSub : ∀ e ∈ rest, e ∈ adjOf g current

/-! ## Basic lemmas on association lists -/

theorem aset_lookup_self {β : Type} (m : List (String × β)) (k : String) (v : β) :
    alookup k (aset m k v) = some v := by
  induction m with
  | nil => simp [aset, alookup]
  | cons e rest ih =>
    obtain ⟨k', v'⟩ := e
    by_cases h : k = k' <;> simp [aset, alookup, h, ih]

theorem aset_lookup_ne {β : Type} (m : List (String × β)) (k k' : String) (v : β)
    (h : k' ≠ k) : alookup k' (aset m k v) = alookup k' m := by
  induction m with
  | nil => simp [aset, alookup, h]
  | cons e rest ih =>
    obtain ⟨k₀, v₀⟩ := e
    by_cases h0 : k = k₀
    · subst h0
      simp [aset, alookup, h]
    · by_cases h1 : k' = k₀ <;> simp [aset, alookup, h0, h1, ih]

theorem alookup_isSome_of_mem {β : Type} {m : List (String × β)} {k : String} {x : β}
    (h : (k, x) ∈ m) : (alookup k m).isSome := by
  induction m with
  | nil => simp at h
  | cons e rest ih =>
    obtain ⟨k₀, v₀⟩ := e
    rcases List.mem_cons.mp h with h | h
    · rw [Prod.mk.injEq] at h
      simp [alookup, h.1]
    · by_cases hk : k = k₀ <;> simp [alookup, hk, ih h]

/-! ## C2: intent classification -/

/-- C2: `identifyQueryType` lower-cases the description once and returns COUNT
(distinct `false`) when it contains "count", "how many" or "number of";
otherwise GROUP (distinct `false`) when it contains "group", "grouped" or
"per"; otherwise SELECT with distinct true iff it contains "distinct",
"unique" or "different".  As a Lean function it is deterministic and pure. -/
theorem identifyQueryType_spec (d : String) :
    ((goContains (goToLower d) "count" || goContains (goToLower d) "how many" ||
        goContains (goToLower d) "number of") = true →
      identifyQueryType d = ("COUNT", false)) ∧
    ((goContains (goToLower d) "count" || goContains (goToLower d) "how many" ||
        goContains (goToLower d) "number of") = false →
     (goContains (goToLower d) "group" || goContains (goToLower d) "grouped" ||
        goContains (goToLower d) "per") = true →
      identifyQueryType d = ("GROUP", false)) ∧
    ((goContains (goToLower d) "count" || goContains (goToLower d) "how many" ||
        goContains (goToLower d) "number of") = false →
     (goContains (goToLower d) "group" || goContains (goToLower d) "grouped" ||
        goContains (goToLower d) "per") = false →
      identifyQueryType d = ("SELECT",
        goContains (goToLower d) "distinct" || goContains (goToLower d) "unique" ||
          goContains (goToLower d) "different")) := by
  refine ⟨fun h1 => ?_, fun h1 h2 => ?_, fun h1 h2 => ?_⟩
  · simp [identifyQueryType, h1]
  · simp [identifyQueryType, h1, h2]
  · simp [identifyQueryType, h1, h2]

/-- Witness for C2 at a concrete description. -/
theorem identifyQueryType_spec_witness :
    identifyQueryType "How many users signed up?" = ("COUNT", false) :=
  (identifyQueryType_spec "How many users signed up?").1 (by decide)

/-! ## C9: confidence scoring -/

/-- C9: the confidence of a non-empty match list whose scores lie in `[0,100]`
is the arithmetic mean of the scores multiplied by `min(count/3, 1)`, and lies
in `[0,100]`; the confidence of an empty match list is `0`. -/
theorem calculateConfidence_spec :
    calculateConfidence [] = 0 ∧
    ∀ ms : List FieldMatch, ms ≠ [] →
      (∀ m ∈ ms, 0 ≤ m.MatchScore ∧ m.MatchScore ≤ 100) →
      calculateConfidence ms =
        ((ms.map (fun m => m.MatchScore)).sum / (ms.length : ℚ)) *
          goMin ((ms.length : ℚ) / 3) 1 ∧
      0 ≤ calculateConfidence ms ∧ calculateConfidence ms ≤ 100 := by
  refine ⟨rfl, fun ms hne hb => ?_⟩
  have hlen : ms.length ≠ 0 := by simpa using hne
  have hlpos : (0 : ℚ) < (ms.length : ℚ) := by
    exact_mod_cast Nat.pos_of_ne_zero hlen
  have hconf : calculateConfidence ms =
      ((ms.map (fun m => m.MatchScore)).sum / (ms.length : ℚ)) *
        goMin ((ms.length : ℚ) / 3) 1 := by
    simp [calculateConfidence, hlen]
  refine ⟨hconf, ?_, ?_⟩
  · rw [hconf]
    have hsum : 0 ≤ (ms.map (fun m => m.MatchScore)).sum := by
      apply List.sum_nonneg
      intro x hx
      obtain ⟨m, hm, rfl⟩ := List.mem_map.mp hx
      exact (hb m hm).1
    have hfac : 0 ≤ goMin ((ms.length : ℚ) / 3) 1 := by
      unfold goMin
      split
      · positivity
      · norm_num
    exact mul_nonneg (div_nonneg hsum hlpos.le) hfac
  · rw [hconf]
    have hsum : (ms.map (fun m => m.MatchScore)).sum ≤ (ms.length : ℚ) * 100 := by
      have := List.sum_le_card_nsmul (ms.map (fun m => m.MatchScore)) 100 (by
        intro x hx
        obtain ⟨m, hm, rfl⟩ := List.mem_map.mp hx
        exact (hb m hm).2)
      simpa [nsmul_eq_mul, mul_comm] using this
    have hmean : (ms.map (fun m => m.MatchScore)).sum / (ms.length : ℚ) ≤ 100 := by
      rw [div_le_iff₀ hlpos]
      linarith [hsum]
    have hmean0 : 0 ≤ (ms.map (fun m => m.MatchScore)).sum / (ms.length : ℚ) := by
      apply div_nonneg _ hlpos.le
      apply List.sum_nonneg
      intro x hx
      obtain ⟨m, hm, rfl⟩ := List.mem_map.mp hx
      exact (hb m hm).1
    have hfac1 : goMin ((ms.length : ℚ) / 3) 1 ≤ 1 := by
      unfold goMin
      split
      · linarith
      · norm_num
    calc ((ms.map (fun m => m.MatchScore)).sum / (ms.length : ℚ)) *
          goMin ((ms.length : ℚ) / 3) 1
        ≤ ((ms.map (fun m => m.MatchScore)).sum / (ms.length : ℚ)) * 1 := by
          apply mul_le_mul_of_nonneg_left hfac1 hmean0
      _ ≤ 100 := by simpa using hmean

/-- Witness for C9 at a concrete match list. -/
theorem calculateConfidence_spec_witness :
    calculateConfidence [⟨"a", "t", "d", 50⟩] =
      (((50 : ℚ)) / 1) * goMin ((1 : ℚ) / 3) 1 ∧
    0 ≤ calculateConfidence [⟨"a", "t", "d", 50⟩] ∧
    calculateConfidence [⟨"a", "t", "d", 50⟩] ≤ 100 := by
  have h := calculateConfidence_spec.2 [⟨"a", "t", "d", 50⟩] (by decide)
    (by intro m hm; simp at hm; subst hm; norm_num)
  simpa using h



/-! ## C3: field matching -/

theorem selectOnce_perm (x : FieldMatch) (l : List FieldMatch) :
    List.Perm ((selectOnce x l).1 :: (selectOnce x l).2) (x :: l) := by
  induction l generalizing x with
  | nil => simp [selectOnce]
  | cons y ys ih =>
    by_cases h : x.MatchScore < y.MatchScore
    · simp only [selectOnce, h, if_pos]
      exact (List.Perm.swap _ _ _).trans ((ih y).cons x)
    · simp only [selectOnce, h, if_neg, not_false_iff]
      exact ((List.Perm.swap _ _ _).trans ((ih x).cons y)).trans (List.Perm.swap _ _ _)

theorem selectOnce_max (x : FieldMatch) (l : List FieldMatch) :
    x.MatchScore ≤ (selectOnce x l).1.MatchScore ∧
    ∀ z ∈ (selectOnce x l).2, z.MatchScore ≤ (selectOnce x l).1.MatchScore := by
  induction l generalizing x with
  | nil => simp [selectOnce]
  | cons y ys ih =>
    by_cases h : x.MatchScore < y.MatchScore
    · simp only [selectOnce, h, if_pos]
      obtain ⟨ih1, ih2⟩ := ih y
      refine ⟨le_trans h.le ih1, ?_⟩
      intro z hz
      rcases List.mem_cons.mp hz with rfl | hz
      · exact le_trans h.le ih1
      · exact ih2 z hz
    · simp only [selectOnce, h, if_neg, not_false_iff]
      obtain ⟨ih1, ih2⟩ := ih x
      refine ⟨ih1, ?_⟩
      intro z hz
      rcases List.mem_cons.mp hz with rfl | hz
      · exact le_trans (not_lt.mp h) ih1
      · exact ih2 z hz

theorem selectOnce_length (x : FieldMatch) (l : List FieldMatch) :
    (selectOnce x l).2.length = l.length := by
  induction l generalizing x with
  | nil => simp [selectOnce]
  | cons y ys ih =>
    by_cases h : x.MatchScore < y.MatchScore <;>
      simp [selectOnce, h, ih]

theorem sortGo_perm : ∀ (fuel : Nat) (l : List FieldMatch),
    List.Perm (sortGo fuel l) l := by
  intro fuel
  induction fuel with
  | zero => intro l; simp [sortGo]
  | succ fuel ih =>
    intro l
    cases l with
    | nil => simp [sortGo]
    | cons x xs =>
      simp only [sortGo]
      exact (((ih _).cons _)).trans (selectOnce_perm x xs)

theorem sortGo_sorted : ∀ (fuel : Nat) (l : List FieldMatch), l.length ≤ fuel →
    (sortGo fuel l).Pairwise (fun a b => b.MatchScore ≤ a.MatchScore) := by
  intro fuel
  induction fuel with
  | zero =>
    intro l hl
    have : l = [] := List.eq_nil_of_length_eq_zero (Nat.le_zero.mp hl)
    subst this
    simp [sortGo]
  | succ fuel ih =>
    intro l hl
    cases l with
    | nil => simp [sortGo]
    | cons x xs =>
      simp only [sortGo]
      have hlen : (selectOnce x xs).2.length ≤ fuel := by
        rw [selectOnce_length]
        exact Nat.le_of_succ_le_succ (by simpa using hl)
      refine List.pairwise_cons.mpr ⟨?_, ih _ hlen⟩
      intro z hz
      have hz' : z ∈ (selectOnce x xs).2 := (sortGo_perm fuel _).mem_iff.mp hz
      exact (selectOnce_max x xs).2 z hz'

theorem sortMatchesByScore_perm (l : List FieldMatch) :
    List.Perm (sortMatchesByScore l) l :=
  sortGo_perm l.length l

theorem sortMatchesByScore_sorted (l : List FieldMatch) :
    (sortMatchesByScore l).Pairwise (fun a b => b.MatchScore ≤ a.MatchScore) :=
  sortGo_sorted l.length l le_rfl

/-- C3: every returned match carries the score
`(matched keyword count) / (total keyword count) * 100` of some catalog field
(score `0` for an empty keyword list); no returned score is below the
threshold; the returned scores are non-increasing; and at most `maxMatches`
entries are returned. -/
theorem FindFieldMatches_spec (fields : List FieldDef) (keywords : List String)
    (threshold : ℚ) (maxMatches : Nat) :
    (∀ m ∈ FindFieldMatches fields keywords threshold maxMatches,
      ∃ f ∈ fields, m = ⟨f.ColumnName, f.TableName, f.Description,
          calculateMatchScore f.Description keywords⟩) ∧
    (∀ d, calculateMatchScore d [] = 0) ∧
    (∀ d ks, ks ≠ [] → calculateMatchScore d ks =
      ((ks.countP (fun k => goContains (goToLower d) (goToLower k)) : ℚ) /
        (ks.length : ℚ)) * 100) ∧
    (∀ m ∈ FindFieldMatches fields keywords threshold maxMatches,
      threshold ≤ m.MatchScore) ∧
    (FindFieldMatches fields keywords threshold maxMatches).Pairwise
      (fun a b => b.MatchScore ≤ a.MatchScore) ∧
    (FindFieldMatches fields keywords threshold maxMatches).length ≤ maxMatches := by
  set filtered := fields.filterMap (fun f =>
    let score := calculateMatchScore f.Description keywords
    if score < threshold then none
    else some (⟨f.ColumnName, f.TableName, f.Description, score⟩ : FieldMatch)) with hfil
  have hres : FindFieldMatches fields keywords threshold maxMatches =
      (if (sortMatchesByScore filtered).length > maxMatches then
        (sortMatchesByScore filtered).take maxMatches
      else sortMatchesByScore filtered) := rfl
  have hmem : ∀ m, m ∈ FindFieldMatches fields keywords threshold maxMatches →
      m ∈ filtered := by
    intro m hm
    rw [hres] at hm
    have hm' : m ∈ sortMatchesByScore filtered := by
      by_cases h : (sortMatchesByScore filtered).length > maxMatches
      · rw [if_pos h] at hm
        exact (List.take_sublist _ _).mem hm
      · rwa [if_neg h] at hm
    exact (sortMatchesByScore_perm filtered).mem_iff.mp hm'
  have hchar : ∀ m ∈ filtered, (∃ f ∈ fields, m = ⟨f.ColumnName, f.TableName, f.Description,
      calculateMatchScore f.Description keywords⟩) ∧ threshold ≤ m.MatchScore := by
    intro m hm
    rw [hfil] at hm
    obtain ⟨f, hf, heq⟩ := List.mem_filterMap.mp hm
    by_cases hlt : calculateMatchScore f.Description keywords < threshold
    · simp [hlt] at heq
    · simp only [hlt, if_neg, not_false_iff] at heq
      have heq' := Option.some.inj heq
      refine ⟨⟨f, hf, heq'.symm⟩, ?_⟩
      rw [← heq']
      exact not_lt.mp hlt
  refine ⟨fun m hm => (hchar m (hmem m hm)).1, ?_, ?_,
    fun m hm => (hchar m (hmem m hm)).2, ?_, ?_⟩
  · intro d; simp [calculateMatchScore]
  · intro d ks hks
    have : ks.length ≠ 0 := by simpa using hks
    simp [calculateMatchScore, this]
  · rw [hres]
    by_cases h : (sortMatchesByScore filtered).length > maxMatches
    · rw [if_pos h]
      exact (sortMatchesByScore_sorted filtered).sublist (List.take_sublist _ _)
    · rw [if_neg h]
      exact sortMatchesByScore_sorted filtered
  · rw [hres]
    by_cases h : (sortMatchesByScore filtered).length > maxMatches
    · rw [if_pos h]
      simp [List.length_take]
    · rw [if_neg h]
      exact not_lt.mp h

/-- Witness for C3 at a concrete catalog and keyword list. -/
theorem FindFieldMatches_spec_witness :
    (30 : ℚ) ≤ (⟨"email", "users", "User email address", 100⟩ : FieldMatch).MatchScore := by
  have hsc : calculateMatchScore "User email address" ["user", "email"] = 100 := by
    have h1 : List.countP
        (fun k => goContains (goToLower "User email address") (goToLower k))
        ["user", "email"] = 2 := rfl
    rw [calculateMatchScore]
    simp [h1]
  have hval : FindFieldMatches [⟨"email", "users", "", "", "User email address", "", "", "", ""⟩]
      ["user", "email"] 30 10 = [⟨"email", "users", "User email address", 100⟩] := by
    rw [FindFieldMatches]
    simp only [List.filterMap_cons, List.filterMap_nil]
    norm_num [hsc]
    simp [sortMatchesByScore, sortGo, selectOnce]
  exact (FindFieldMatches_spec
    [⟨"email", "users", "", "", "User email address", "", "", "", ""⟩]
    ["user", "email"] 30 10).2.2.2.1
    ⟨"email", "users", "User email address", 100⟩ (by rw [hval]; exact List.mem_singleton.mpr rfl)

/-! ## C5: relationship-graph construction -/

theorem aset_lookup {β : Type} (m : List (String × β)) (k k' : String) (v : β) :
    alookup k' (aset m k v) = if k' = k then some v else alookup k' m := by
  by_cases h : k' = k
  · subst h; simp [aset_lookup_self]
  · simp [h, aset_lookup_ne m k k' v h]

theorem alookup_append {β : Type} (l1 l2 : List (String × β)) (k : String) :
    alookup k (l1 ++ l2) =
      match alookup k l1 with
      | some v => some v
      | none => alookup k l2 := by
  induction l1 with
  | nil => simp [alookup]
  | cons e rest ih =>
    obtain ⟨k0, v0⟩ := e
    by_cases h : k = k0 <;> simp [alookup, h, ih]

theorem adjOf_ensureNode (g : Graph) (t a : String) :
    adjOf (ensureNode g t) a = adjOf g a := by
  unfold ensureNode
  cases hg : alookup t g with
  | some adj => rfl
  | none =>
    unfold adjOf
    rw [alookup_append]
    cases ha : alookup a g with
    | some adj => rfl
    | none =>
      by_cases h : a = t
      · subst h
        simp [alookup]
      · simp [alookup, h]

theorem ensureNode_isSome (g : Graph) (t : String) :
    (alookup t (ensureNode g t)).isSome := by
  unfold ensureNode
  cases hg : alookup t g with
  | some adj => simp [hg]
  | none => simp [alookup_append, hg, alookup]

theorem ensureNode_isSome_mono (g : Graph) (t t' : String)
    (h : (alookup t' g).isSome) : (alookup t' (ensureNode g t)).isSome := by
  unfold ensureNode
  cases hg : alookup t g with
  | some adj => exact h
  | none =>
    rw [alookup_append]
    cases ht' : alookup t' g with
    | some adj => simp
    | none => simp [ht'] at h


theorem setAdj_alookup_self (g : Graph) (x y : String) (j : Join) :
    alookup x (setAdj g x y j) = (alookup x g).map (fun adj => aset adj y j) := by
  induction g with
  | nil => rfl
  | cons e rest ih =>
    obtain ⟨k0, adj0⟩ := e
    show alookup x ((if k0 = x then (k0, aset adj0 y j) else (k0, adj0)) :: setAdj rest x y j) = _
    by_cases h : k0 = x
    · rw [if_pos h]
      subst h
      simp [alookup]
    · rw [if_neg h]
      have hx : x ≠ k0 := fun hh => h hh.symm
      simp [alookup, hx, ih]

theorem setAdj_alookup_ne (g : Graph) (x y a : String) (j : Join) (h : a ≠ x) :
    alookup a (setAdj g x y j) = alookup a g := by
  induction g with
  | nil => rfl
  | cons e rest ih =>
    obtain ⟨k0, adj0⟩ := e
    show alookup a ((if k0 = x then (k0, aset adj0 y j) else (k0, adj0)) :: setAdj rest x y j) = _
    by_cases hk : k0 = x
    · rw [if_pos hk]
      have ha : a ≠ k0 := fun hh => h (hh.trans hk)
      simp [alookup, ha, ih]
    · rw [if_neg hk]
      by_cases ha : a = k0 <;> simp [alookup, ha, ih]

theorem adjOf_setAdj (g : Graph) (x y a : String) (j : Join)
    (hx : (alookup x g).isSome) :
    adjOf (setAdj g x y j) a = if a = x then aset (adjOf g x) y j else adjOf g a := by
  by_cases h : a = x
  · subst h
    obtain ⟨adj, hadj⟩ := Option.isSome_iff_exists.mp hx
    simp [adjOf, setAdj_alookup_self, hadj]
  · simp [adjOf, h, setAdj_alookup_ne g x y a j h]

theorem setAdj_isSome (g : Graph) (x y a : String) (j : Join)
    (h : (alookup a g).isSome) : (alookup a (setAdj g x y j)).isSome := by
  by_cases hax : a = x
  · subst hax
    rw [setAdj_alookup_self]
    simpa using h
  · rwa [setAdj_alookup_ne g x y a j hax]

theorem addFieldEdge_lookup (g : Graph) (f : FieldDef) (a b : String) :
    alookup b (adjOf (addFieldEdge g f) a) =
      if declaresB f a b then some ⟨a, b, edgeCondition f⟩
      else alookup b (adjOf g a) := by
  by_cases hskip : f.ForeignTable = "" ∨ f.ForeignKey = ""
  · have hd : declaresB f a b = false := by
      unfold declaresB
      rcases hskip with h | h <;> simp [h]
    simp [addFieldEdge, hskip, hd]
  · push_neg at hskip
    obtain ⟨hft, hfk⟩ := hskip
    have hskip' : ¬(f.ForeignTable = "" ∨ f.ForeignKey = "") := by
      push_neg
      exact ⟨hft, hfk⟩
    rw [addFieldEdge, if_neg hskip']
    have hdecl : declaresB f a b =
        decide ((f.TableName = a ∧ f.ForeignTable = b) ∨
          (f.TableName = b ∧ f.ForeignTable = a)) := by
      unfold declaresB
      simp [hft, hfk]
    set T := f.TableName with hT
    set FT := f.ForeignTable with hFT
    set g2 := ensureNode (ensureNode g T) FT with hg2
    have hadj2 : ∀ x, adjOf g2 x = adjOf g x := by
      intro x
      rw [hg2, adjOf_ensureNode, adjOf_ensureNode]
    have hsomeT : (alookup T g2).isSome :=
      ensureNode_isSome_mono _ _ _ (ensureNode_isSome g T)
    have hsomeFT : (alookup FT g2).isSome := ensureNode_isSome _ _
    set j1 : Join := ⟨T, FT, edgeCondition f⟩ with hj1
    set j2 : Join := ⟨FT, T, edgeCondition f⟩ with hj2
    set g3 := setAdj g2 T FT j1 with hg3
    have hsomeFT3 : (alookup FT g3).isSome := setAdj_isSome _ _ _ _ _ hsomeFT
    have hadj3 : adjOf g3 a = if a = T then aset (adjOf g2 T) FT j1 else adjOf g2 a :=
      adjOf_setAdj g2 T FT a j1 hsomeT
    have hadj3FT : adjOf g3 FT = if FT = T then aset (adjOf g2 T) FT j1 else adjOf g2 FT :=
      adjOf_setAdj g2 T FT FT j1 hsomeT
    have hadj4 : adjOf (setAdj g3 FT T j2) a =
        if a = FT then aset (adjOf g3 FT) T j2 else adjOf g3 a :=
      adjOf_setAdj g3 FT T a j2 hsomeFT3
    rw [hadj4]
    by_cases haFT : a = FT
    · rw [if_pos haFT, hadj3FT, aset_lookup]
      by_cases hbT : b = T
      · rw [if_pos hbT]
        have hd : declaresB f a b = true := by
          rw [hdecl]
          apply decide_eq_true
          right
          exact ⟨hbT.symm, haFT.symm⟩
        rw [if_pos hd, hj2, haFT, hbT]
      · rw [if_neg hbT]
        by_cases hFTT : FT = T
        · rw [if_pos hFTT, aset_lookup]
          have hbFT : ¬ b = FT := fun h => hbT (h.trans hFTT)
          rw [if_neg hbFT, hadj2]
          have hd : declaresB f a b = false := by
            rw [hdecl]
            apply decide_eq_false
            rintro (⟨h1, h2⟩ | ⟨h1, h2⟩)
            · exact hbFT h2.symm
            · exact hbT h1.symm
          rw [if_neg (by simp [hd])]
          rw [haFT, hFTT]
        · rw [if_neg hFTT, hadj2]
          have hd : declaresB f a b = false := by
            rw [hdecl]
            apply decide_eq_false
            rintro (⟨h1, h2⟩ | ⟨h1, h2⟩)
            · exact hFTT (h1.trans haFT).symm
            · exact hbT h1.symm
          rw [if_neg (by simp [hd])]
          rw [haFT]
    · rw [if_neg haFT, hadj3]
      by_cases haT : a = T
      · rw [if_pos haT, aset_lookup]
        by_cases hbFT : b = FT
        · rw [if_pos hbFT]
          have hd : declaresB f a b = true := by
            rw [hdecl]
            apply decide_eq_true
            left
            exact ⟨haT.symm, hbFT.symm⟩
          rw [if_pos hd, hj1, haT, hbFT]
        · rw [if_neg hbFT, hadj2]
          have hd : declaresB f a b = false := by
            rw [hdecl]
            apply decide_eq_false
            rintro (⟨h1, h2⟩ | ⟨h1, h2⟩)
            · exact hbFT h2.symm
            · exact haFT h2.symm
          rw [if_neg (by simp [hd])]
          rw [haT]
      · rw [if_neg haT, hadj2]
        have hd : declaresB f a b = false := by
          rw [hdecl]
          apply decide_eq_false
          rintro (⟨h1, h2⟩ | ⟨h1, h2⟩)
          · exact haT h1.symm
          · exact haFT h2.symm
        rw [if_neg (by simp [hd])]

theorem lastDecl_aux (a b : String) : ∀ (fields : List FieldDef) (acc : Option FieldDef),
    fields.foldl (fun acc f => if declaresB f a b then some f else acc) acc =
      match lastDecl fields a b with
      | some x => some x
      | none => acc := by
  intro fields
  induction fields with
  | nil => intro acc; simp [lastDecl]
  | cons f fs ih =>
    intro acc
    show fs.foldl _ (if declaresB f a b then some f else acc) = _
    rw [ih]
    have hR : lastDecl (f :: fs) a b =
        match lastDecl fs a b with
        | some x => some x
        | none => if declaresB f a b then some f else none := by
      show fs.foldl _ (if declaresB f a b then some f else none) = _
      rw [ih]
    rw [hR]
    cases lastDecl fs a b with
    | some x => rfl
    | none =>
      by_cases h : declaresB f a b <;> simp [h]

theorem buildGraph_lookup : ∀ (fields : List FieldDef) (g0 : Graph) (a b : String),
    alookup b (adjOf (fields.foldl addFieldEdge g0) a) =
      (match lastDecl fields a b with
       | some f => some ⟨a, b, edgeCondition f⟩
       | none => alookup b (adjOf g0 a)) := by
  intro fields
  induction fields with
  | nil => intro g0 a b; simp [lastDecl]
  | cons f fs ih =>
    intro g0 a b
    show alookup b (adjOf (fs.foldl addFieldEdge (addFieldEdge g0 f)) a) = _
    rw [ih, addFieldEdge_lookup]
    have hR : lastDecl (f :: fs) a b =
        match lastDecl fs a b with
        | some x => some x
        | none => if declaresB f a b then some f else none := by
      show fs.foldl _ (if declaresB f a b then some f else none) = _
      rw [lastDecl_aux]
    rw [hR]
    cases lastDecl fs a b with
    | some x => rfl
    | none =>
      by_cases h : declaresB f a b <;> simp [h]

theorem declaresB_symm (f : FieldDef) (a b : String) :
    declaresB f a b = declaresB f b a := by
  unfold declaresB
  by_cases h1 : f.ForeignTable = "" <;> by_cases h2 : f.ForeignKey = "" <;>
    simp [h1, h2, and_comm, or_comm]

theorem lastDecl_symm (fields : List FieldDef) (a b : String) :
    lastDecl fields a b = lastDecl fields b a := by
  unfold lastDecl
  congr 1
  funext acc f
  rw [declaresB_symm]

theorem lastDecl_isSome_of_mem {fields : List FieldDef} {f : FieldDef} {a b : String}
    (hf : f ∈ fields) (hd : declaresB f a b = true) :
    (lastDecl fields a b).isSome := by
  induction fields with
  | nil => simp at hf
  | cons f0 fs ih =>
    have key : ∀ acc : Option FieldDef,
        (acc.isSome ∨ (lastDecl fs a b).isSome) →
        (fs.foldl (fun acc f => if declaresB f a b then some f else acc) acc).isSome := by
      intro acc hacc
      rw [lastDecl_aux]
      cases hl : lastDecl fs a b with
      | some x => simp
      | none =>
        rcases hacc with h | h
        · exact h
        · rw [hl] at h
          simp at h
    rcases List.mem_cons.mp hf with rfl | hf
    · show (fs.foldl _ (if declaresB f a b then some f else none)).isSome
      apply key
      left
      simp [hd]
    · show (fs.foldl _ (if declaresB f0 a b then some f0 else none)).isSome
      apply key
      right
      exact ih hf

/-- C5: the adjacency of the built graph between tables `a` and `b` is exactly
the edge `⟨a, b, "<table>.<column> = <foreignTable>.<foreignKey>"⟩` derived
from the *last* catalog field declaring the pair (later declarations
overwrite earlier ones, no parallel edges accumulate); every declaring field
makes the pair adjacent, and the graph is symmetric with the same condition
string in both directions. -/
theorem buildRelationshipGraph_spec (fields : List FieldDef) (a b : String) :
    (alookup b (adjOf (buildRelationshipGraph fields) a) =
      (match lastDecl fields a b with
       | some f => some ⟨a, b, edgeCondition f⟩
       | none => none)) ∧
    (∀ f ∈ fields, declaresB f a b = true →
      ∃ j, alookup b (adjOf (buildRelationshipGraph fields) a) = some j ∧
        j.From = a ∧ j.To = b) ∧
    (∀ j, alookup b (adjOf (buildRelationshipGraph fields) a) = some j →
      ∃ j', alookup a (adjOf (buildRelationshipGraph fields) b) = some j' ∧
        j'.Condition = j.Condition ∧ j'.From = b ∧ j'.To = a) := by
  have hchar : ∀ x y, alookup y (adjOf (buildRelationshipGraph fields) x) =
      (match lastDecl fields x y with
       | some f => some ⟨x, y, edgeCondition f⟩
       | none => none) := by
    intro x y
    rw [buildRelationshipGraph, buildGraph_lookup]
    cases lastDecl fields x y with
    | some f => rfl
    | none => simp [adjOf, alookup]
  refine ⟨hchar a b, ?_, ?_⟩
  · intro f hf hd
    have hs := lastDecl_isSome_of_mem hf hd
    obtain ⟨f0, hf0⟩ := Option.isSome_iff_exists.mp hs
    refine ⟨⟨a, b, edgeCondition f0⟩, ?_, rfl, rfl⟩
    rw [hchar a b, hf0]
  · intro j hj
    rw [hchar a b] at hj
    cases hl : lastDecl fields a b with
    | none => rw [hl] at hj; simp at hj
    | some f0 =>
      rw [hl] at hj
      have hj' : j = ⟨a, b, edgeCondition f0⟩ := (Option.some.inj hj).symm
      refine ⟨⟨b, a, edgeCondition f0⟩, ?_, by rw [hj'], rfl, rfl⟩
      rw [hchar b a, lastDecl_symm fields b a, hl]

/-! ## BFS: walk lemmas and reconstruction -/

theorem adj_iff_lookup (g : Graph) (a w : String) :
    Adj g a w ↔ ∃ j, alookup w (adjOf g a) = some j := by
  unfold Adj adjB
  exact Option.isSome_iff_exists

theorem alookup_mem {β : Type} {m : List (String × β)} {k : String} {val : β}
    (h : alookup k m = some val) : (k, val) ∈ m := by
  induction m with
  | nil => simp [alookup] at h
  | cons e rest ih =>
    obtain ⟨k0, v0⟩ := e
    by_cases hk : k = k0
    · subst hk
      simp [alookup] at h
      subst h
      exact List.mem_cons_self _ _
    · simp [alookup, hk] at h
      exact List.mem_cons_of_mem _ (ih h)

theorem walk_snoc_view {g : Graph} {u w : String} {n : Nat}
    (h : WalkLen g u w (n + 1)) : ∃ x, WalkLen g u x n ∧ Adj g x w := by
  cases h with
  | snoc hw hadj => exact ⟨_, hw, hadj⟩

theorem walk_of_chain (g : Graph) :
    ∀ (l : List String) (a b s : String) (n : Nat),
      List.Chain' (Adj g) (a :: l) → (a :: l).getLast? = some b →
      WalkLen g s a n → WalkLen g s b (n + l.length) := by
  intro l
  induction l with
  | nil =>
    intro a b s n hc hl hw
    simp at hl
    subst hl
    simpa using hw
  | cons c l ih =>
    intro a b s n hc hl hw
    have hadj : Adj g a c := (List.chain'_cons.mp hc).1
    have hc' : List.Chain' (Adj g) (c :: l) := (List.chain'_cons.mp hc).2
    have hl' : (c :: l).getLast? = some b := by
      simpa [List.getLast?_cons_cons] using hl
    have hw' : WalkLen g s c (n + 1) := WalkLen.snoc hw hadj
    have := ih c b s (n + 1) hc' hl' hw'
    have harith : n + 1 + l.length = n + (l.length + 1) := by omega
    rw [harith] at this
    simpa using this

theorem walk_frontier {g : Graph} {start endT : String} {q v : List String}
    {p : List (String × String)} {lab : String → Nat}
    (inv : BfsInv g start endT q v p lab) :
    ∀ (m : Nat) (z : String), WalkLen g start z m →
      (z ∈ v ∧ lab z ≤ m) ∨ (∃ y ∈ q, lab y ≤ m) := by
  intro m z hw
  induction hw with
  | refl =>
    left
    exact ⟨inv.startVis, by rw [inv.startZero]⟩
  | snoc hw hadj ih =>
    rename_i y w n
    rcases ih with ⟨hyv, hylab⟩ | ⟨t, ht, htlab⟩
    · by_cases hyq : y ∈ q
      · right
        exact ⟨y, hyq, le_trans hylab (Nat.le_succ _)⟩
      · left
        obtain ⟨hwv, hwlab⟩ := inv.procClosed y hyv hyq w hadj
        exact ⟨hwv, by omega⟩
    · right
      exact ⟨t, ht, le_trans htlab (Nat.le_succ _)⟩

theorem recon_ok {g : Graph} {start : String} {v : List String}
    {p : List (String × String)} {lab : String → Nat}
    (hz : lab start = 0)
    (hps : ∀ x ∈ v, x ≠ start →
      ∃ pr, alookup x p = some pr ∧ pr ∈ v ∧ Adj g pr x ∧ lab x = lab pr + 1) :
    ∀ (fuel : Nat) (x : String) (acc : List String), x ∈ v → lab x < fuel →
      ∃ l, reconPath p start fuel x acc = some (l ++ acc) ∧ l.length = lab x ∧
        List.Chain' (Adj g) (l ++ [x]) ∧ (l ++ [x]).head? = some start := by
  intro fuel
  induction fuel with
  | zero =>
    intro x acc hx hlt
    omega
  | succ fuel ih =>
    intro x acc hx hlt
    by_cases hxs : x = start
    · subst hxs
      refine ⟨[], ?_, ?_, ?_, ?_⟩
      · simp [reconPath]
      · simp [hz]
      · simp
      · simp
    · obtain ⟨pr, hlook, hprv, hadj, hlab⟩ := hps x hx hxs
      have hprlt : lab pr < fuel := by omega
      obtain ⟨l', heq, hlen, hchain, hhead⟩ := ih pr (pr :: acc) hprv hprlt
      refine ⟨l' ++ [pr], ?_, ?_, ?_, ?_⟩
      · rw [reconPath, if_neg hxs, hlook]
        show reconPath p start fuel pr (pr :: acc) = some (l' ++ [pr] ++ acc)
        rw [heq]
        simp
      · simp [hlen, hlab]
      · rw [List.chain'_append]
        refine ⟨hchain, List.chain'_singleton _, ?_⟩
        intro c hc d hd
        rw [List.getLast?_concat] at hc
        simp at hd
        subst hd
        have hcpr : pr = c := by simpa using hc
        subst hcpr
        exact hadj
      · cases l' with
        | nil =>
          simp at hhead
          simp [hhead]
        | cons e t =>
          simp at hhead
          simp [hhead]

/-! ## BFS: invariant maintenance -/

theorem midInv_entry {g : Graph} {start endT current : String} {qrest v : List String}
    {p : List (String × String)} {lab : String → Nat}
    (inv : BfsInv g start endT (current :: qrest) v p lab) (hne : current ≠ endT) :
    MidInv g start endT current (adjOf g current) qrest v p lab := by
  have hcq : current ∈ current :: qrest := List.mem_cons_self _ _
  have hnodup := List.nodup_cons.mp inv.queueNodup
  refine ⟨inv.startVis, inv.startZero, ?_, hnodup.2, inv.queueSub current hcq, hnodup.1,
    inv.reach, inv.parentSpec, ?_, ?_, (List.pairwise_cons.mp inv.queueMono).2, ?_, ?_, ?_,
    inv.labBound, fun e he => he⟩
  · intro x hx
    exact inv.queueSub x (List.mem_cons_of_mem _ hx)
  · intro u hu hq hc w hadj
    have : u ∉ current :: qrest := by
      intro hmem
      rcases List.mem_cons.mp hmem with h | h
      · exact hc h
      · exact hq h
    exact inv.procClosed u hu this w hadj
  · intro w hadj
    left
    obtain ⟨j, hj⟩ := (adj_iff_lookup g current w).mp hadj
    exact ⟨j, alookup_mem hj⟩
  · intro y hy
    constructor
    · exact (List.pairwise_cons.mp inv.queueMono).1 y hy
    · exact inv.spread current hcq y (List.mem_cons_of_mem _ hy)
  · intro u hu hq hc
    have : u ∉ current :: qrest := by
      intro hmem
      rcases List.mem_cons.mp hmem with h | h
      · exact hc h
      · exact hq h
    exact inv.procLe u hu this current hcq
  · rcases inv.endFrontier with h | h
    · left; exact h
    · right
      rcases List.mem_cons.mp h with h | h
      · exact absurd h.symm hne
      · exact h

theorem midInv_exit {g : Graph} {start endT current : String} {q v : List String}
    {p : List (String × String)} {lab : String → Nat}
    (inv : MidInv g start endT current [] q v p lab) :
    BfsInv g start endT q v p lab := by
  refine ⟨inv.startVis, inv.startZero, inv.queueSub, inv.queueNodup, inv.reach,
    inv.parentSpec, ?_, inv.queueMono, ?_, ?_, inv.endFrontier, inv.labBound⟩
  · intro u hu hq w hadj
    by_cases hc : u = current
    · subst hc
      rcases inv.currentRest w hadj with ⟨j, hj⟩ | hcl
      · simp at hj
      · exact hcl
    · exact inv.procClosed u hu hq hc w hadj
  · intro x hx y hy
    have h1 := (inv.queueBand y hy).2
    have h2 := (inv.queueBand x hx).1
    omega
  · intro u hu hq y hy
    by_cases hc : u = current
    · subst hc
      exact (inv.queueBand y hy).1
    · exact le_trans (inv.procLe u hu hq hc) (inv.queueBand y hy).1

theorem countP_notmem_lt {l v : List String} {nb : String}
    (hmem : nb ∈ l) (hnv : nb ∉ v) :
    l.countP (fun c => decide (c ∉ nb :: v)) < l.countP (fun c => decide (c ∉ v)) := by
  induction l with
  | nil => simp at hmem
  | cons c l ih =>
    rw [List.countP_cons, List.countP_cons]
    have hmono : l.countP (fun c => decide (c ∉ nb :: v)) ≤
        l.countP (fun c => decide (c ∉ v)) := by
      apply List.countP_mono_left
      intro a _ ha
      simp at ha
      simp [ha.2]
    by_cases hc : c = nb
    · subst hc
      have h1 : (decide (c ∉ c :: v)) = false := by simp
      have h2 : (decide (c ∉ v)) = true := by simpa using hnv
      rw [h1, h2]
      have e1 : (if (false : Bool) = true then 1 else 0) = 0 := rfl
      have e2 : (if (true : Bool) = true then 1 else 0) = 1 := rfl
      rw [e1, e2]
      omega
    · rcases List.mem_cons.mp hmem with h | h
      · exact absurd h.symm hc
      · have := ih h
        have hterm : (if decide (c ∉ nb :: v) = true then 1 else 0) ≤
            (if decide (c ∉ v) = true then 1 else 0) := by
          by_cases hcv : c ∈ v
          · simp [hcv]
          · simp [hcv, hc]
        omega

theorem countP_notmem_mono {l v : List String} {nb : String} :
    l.countP (fun c => decide (c ∉ nb :: v)) ≤ l.countP (fun c => decide (c ∉ v)) := by
  apply List.countP_mono_left
  intro a _ ha
  simp at ha
  simp [ha.2]

theorem mem_candList {g : Graph} {a nb : String} {j : Join}
    (h : (nb, j) ∈ adjOf g a) : nb ∈ candList g := by
  unfold adjOf at h
  cases hl : alookup a g with
  | none => rw [hl] at h; simp at h
  | some adj =>
    rw [hl] at h
    simp at h
    have hga : (a, adj) ∈ g := alookup_mem hl
    clear hl
    induction g with
    | nil => simp at hga
    | cons e rest ih =>
      rcases List.mem_cons.mp hga with he | he
      · subst he
        show nb ∈ adj.map Prod.fst ++ candList rest
        apply List.mem_append_left
        exact List.mem_map.mpr ⟨(nb, j), h, rfl⟩
      · obtain ⟨k0, adj0⟩ := e
        show nb ∈ adj0.map Prod.fst ++ candList rest
        exact List.mem_append_right _ (ih he)

theorem bfsVisit_inv {g : Graph} {start endT current : String} :
    ∀ (rest : List (String × Join)) (q v : List String) (p : List (String × String))
      (lab : String → Nat),
      MidInv g start endT current rest q v p lab →
      ∃ lab', MidInv g start endT current []
          (bfsVisit current rest q v p).1 (bfsVisit current rest q v p).2.1
          (bfsVisit current rest q v p).2.2 lab' ∧
        (bfsVisit current rest q v p).1.length +
            unvisCount g (bfsVisit current rest q v p).2.1 ≤
          q.length + unvisCount g v := by
  intro rest
  induction rest with
  | nil =>
    intro q v p lab inv
    exact ⟨lab, inv, le_refl _⟩
  | cons e rest ih =>
    intro q v p lab inv
    obtain ⟨nb, j⟩ := e
    by_cases hnb : nb ∈ v
    · have hstep : bfsVisit current ((nb, j) :: rest) q v p = bfsVisit current rest q v p := by
        show (if nb ∈ v then bfsVisit current rest q v p else _) = _
        rw [if_pos hnb]
      rw [hstep]
      apply ih
      refine ⟨inv.startVis, inv.startZero, inv.queueSub, inv.queueNodup, inv.currentVis,
        inv.currentNotQ, inv.reach, inv.parentSpec, inv.procClosed, ?_, inv.queueMono,
        inv.queueBand, inv.procLe, inv.endFrontier, inv.labBound, ?_⟩
      · intro w hadj
        rcases inv.currentRest w hadj with ⟨jj, hjj⟩ | hcl
        · rcases List.mem_cons.mp hjj with hh | hh
          · right
            have hw : w = nb := congrArg Prod.fst hh
            subst hw
            refine ⟨hnb, ?_⟩
            by_cases hq : w ∈ q
            · exact (inv.queueBand w hq).2
            · by_cases hc : w = current
              · subst hc
                omega
              · have := inv.procLe w hnb hq hc
                omega
          · exact Or.inl ⟨jj, hh⟩
        · exact Or.inr hcl
      · intro e he
        exact inv.restSub e (List.mem_cons_of_mem _ he)
    · have hstep : bfsVisit current ((nb, j) :: rest) q v p =
          bfsVisit current rest (q ++ [nb]) (nb :: v) (aset p nb current) := by
        show (if nb ∈ v then _ else bfsVisit current rest (q ++ [nb]) (nb :: v)
          (aset p nb current)) = _
        rw [if_neg hnb]
      rw [hstep]
      have hnbadj : Adj g current nb := by
        rw [adj_iff_lookup]
        have hmem : (nb, j) ∈ adjOf g current := inv.restSub _ (List.mem_cons_self _ _)
        obtain ⟨val, hval⟩ := Option.isSome_iff_exists.mp (alookup_isSome_of_mem hmem)
        exact ⟨val, hval⟩
      have hnbq : nb ∉ q := fun h => hnb (inv.queueSub nb h)
      have hnbcur : nb ≠ current := fun h => hnb (h ▸ inv.currentVis)
      have hnbstart : nb ≠ start := fun h => hnb (h ▸ inv.startVis)
      set lab' : String → Nat := fun x => if x = nb then lab current + 1 else lab x with hlab'
      have hlabnb : lab' nb = lab current + 1 := by simp [hlab']
      have hlabne : ∀ x, x ≠ nb → lab' x = lab x := by
        intro x hx
        simp [hlab', hx]
      have hlabv : ∀ x, x ∈ v → lab' x = lab x := by
        intro x hx
        exact hlabne x (fun h => hnb (h ▸ hx))
      have hlabcur : lab' current = lab current := hlabne current (Ne.symm hnbcur)
      have inv' : MidInv g start endT current rest (q ++ [nb]) (nb :: v)
          (aset p nb current) lab' := by
        refine ⟨List.mem_cons_of_mem _ inv.startVis, ?_, ?_, ?_,
          List.mem_cons_of_mem _ inv.currentVis, ?_, ?_, ?_, ?_, ?_, ?_, ?_, ?_, ?_, ?_, ?_⟩
        · rw [hlabne start (Ne.symm hnbstart)]
          exact inv.startZero
        · intro x hx
          rcases List.mem_append.mp hx with h | h
          · exact List.mem_cons_of_mem _ (inv.queueSub x h)
          · simp at h
            subst h
            exact List.mem_cons_self _ _
        · rw [List.nodup_append]
          refine ⟨inv.queueNodup, List.nodup_singleton _, ?_⟩
          intro x hx hx'
          simp at hx'
          subst hx'
          exact hnbq hx
        · intro h
          rcases List.mem_append.mp h with h | h
          · exact inv.currentNotQ h
          · simp at h
            exact hnbcur h.symm
        · intro x hx
          rcases List.mem_cons.mp hx with rfl | hx
          · rw [hlabnb]
            exact WalkLen.snoc (inv.reach current inv.currentVis) hnbadj
          · rw [hlabv x hx]
            exact inv.reach x hx
        · intro x hx hxs
          rcases List.mem_cons.mp hx with rfl | hx
          · refine ⟨current, ?_, List.mem_cons_of_mem _ inv.currentVis, hnbadj, ?_⟩
            · exact aset_lookup_self p x current
            · rw [hlabnb, hlabcur]
          · obtain ⟨pr, hpr1, hpr2, hpr3, hpr4⟩ := inv.parentSpec x hx hxs
            have hxnb : x ≠ nb := fun h => hnb (h ▸ hx)
            refine ⟨pr, ?_, List.mem_cons_of_mem _ hpr2, hpr3, ?_⟩
            · rw [aset_lookup, if_neg hxnb]
              exact hpr1
            · rw [hlabv x hx, hlabv pr hpr2]
              exact hpr4
        · intro u hu hq hc w hadj
          have hunb : u ≠ nb := by
            intro h
            subst h
            exact hq (List.mem_append_right _ (List.mem_singleton.mpr rfl))
          have huv : u ∈ v := by
            rcases List.mem_cons.mp hu with h | h
            · exact absurd h hunb
            · exact h
          have huq : u ∉ q := fun h => hq (List.mem_append_left _ h)
          obtain ⟨hwv, hwlab⟩ := inv.procClosed u huv huq hc w hadj
          have hwnb : w ≠ nb := fun h => hnb (h ▸ hwv)
          refine ⟨List.mem_cons_of_mem _ hwv, ?_⟩
          rw [hlabv w hwv, hlabv u huv]
          exact hwlab
        · intro w hadj
          rcases inv.currentRest w hadj with ⟨jj, hjj⟩ | hcl
          · rcases List.mem_cons.mp hjj with hh | hh
            · right
              have hw : w = nb := congrArg Prod.fst hh
              subst hw
              refine ⟨List.mem_cons_self _ _, ?_⟩
              rw [hlabnb, hlabcur]
            · exact Or.inl ⟨jj, hh⟩
          · right
            obtain ⟨hwv, hwlab⟩ := hcl
            refine ⟨List.mem_cons_of_mem _ hwv, ?_⟩
            rw [hlabv w hwv, hlabcur]
            exact hwlab
        · rw [List.pairwise_append]
          refine ⟨?_, List.pairwise_singleton _ _, ?_⟩
          · apply List.Pairwise.imp_of_mem ?_ inv.queueMono
            intro x y hx hy hxy
            rw [hlabv x (inv.queueSub x hx), hlabv y (inv.queueSub y hy)]
            exact hxy
          · intro x hx y hy
            simp at hy
            subst hy
            rw [hlabv x (inv.queueSub x hx), hlabnb]
            exact (inv.queueBand x hx).2
        · intro y hy
          rcases List.mem_append.mp hy with h | h
          · rw [hlabv y (inv.queueSub y h), hlabcur]
            exact inv.queueBand y h
          · simp at h
            subst h
            rw [hlabnb, hlabcur]
            omega
        · intro u hu hq hc
          have hunb : u ≠ nb := by
            intro h
            subst h
            exact hq (List.mem_append_right _ (List.mem_singleton.mpr rfl))
          have huv : u ∈ v := by
            rcases List.mem_cons.mp hu with h | h
            · exact absurd h hunb
            · exact h
          have huq : u ∉ q := fun h => hq (List.mem_append_left _ h)
          rw [hlabv u huv, hlabcur]
          exact inv.procLe u huv huq hc
        · rcases inv.endFrontier with h | h
          · by_cases he : endT = nb
            · right
              subst he
              exact List.mem_append_right _ (List.mem_singleton.mpr rfl)
            · left
              intro hmem
              rcases List.mem_cons.mp hmem with hh | hh
              · exact he hh
              · exact h hh
          · right
            exact List.mem_append_left _ h
        · intro x hx
          have hlen : (nb :: v).length = v.length + 1 := rfl
          rcases List.mem_cons.mp hx with rfl | hx
          · rw [hlabnb, hlen]
            have := inv.labBound current inv.currentVis
            omega
          · rw [hlabv x hx, hlen]
            have := inv.labBound x hx
            omega
        · intro e he
          exact inv.restSub e (List.mem_cons_of_mem _ he)
      obtain ⟨lab'', hfin, hphi⟩ := ih (q ++ [nb]) (nb :: v) (aset p nb current) lab' inv'
      refine ⟨lab'', hfin, le_trans hphi ?_⟩
      have hcand : nb ∈ candList g :=
        mem_candList (inv.restSub _ (List.mem_cons_self _ _))
      have hlt : unvisCount g (nb :: v) < unvisCount g v :=
        countP_notmem_lt hcand hnb
      have hlenq : (q ++ [nb]).length = q.length + 1 := by simp
      unfold unvisCount at hlt
      unfold unvisCount
      omega

theorem bfsLoop_spec {g : Graph} {start endT : String} :
    ∀ (fuel : Nat) (q v : List String) (p : List (String × String)),
      (∃ lab, BfsInv g start endT q v p lab) →
      q.length + unvisCount g v < fuel →
      (bfsLoop g start endT fuel q v p ≠ .stuck) ∧
      (∀ path, bfsLoop g start endT fuel q v p = .found path →
        List.Chain' (Adj g) path ∧ path.head? = some start ∧
        path.getLast? = some endT ∧
        ∃ n, path.length = n + 1 ∧ WalkLen g start endT n ∧
          ∀ m, WalkLen g start endT m → n ≤ m) ∧
      (bfsLoop g start endT fuel q v p = .exhausted →
        ∀ m, ¬ WalkLen g start endT m) := by
  intro fuel
  induction fuel with
  | zero =>
    intro q v p hinv hbound
    omega
  | succ fuel ih =>
    intro q v p hinv hbound
    obtain ⟨lab, inv⟩ := hinv
    cases q with
    | nil =>
      have hres : bfsLoop g start endT (fuel + 1) [] v p = .exhausted := rfl
      rw [hres]
      refine ⟨by simp, ?_, ?_⟩
      · intro path h
        exact absurd h (by simp)
      · intro _ m hw
        rcases walk_frontier inv m endT hw with ⟨hev, _⟩ | ⟨y, hy, _⟩
        · rcases inv.endFrontier with h | h
          · exact h hev
          · simp at h
        · simp at hy
    | cons current qrest =>
      by_cases hce : current = endT
      · subst hce
        have hev : current ∈ v := inv.queueSub current (List.mem_cons_self _ _)
        have hlt : lab current < v.length := inv.labBound current hev
        obtain ⟨l, hrecon, hlen, hchain, hhead⟩ :=
          recon_ok inv.startZero inv.parentSpec v.length current [current] hev hlt
        have hres : bfsLoop g start current (fuel + 1) (current :: qrest) v p =
            .found (l ++ [current]) := by
          rw [bfsLoop, if_pos rfl, hrecon]
        rw [hres]
        have hmin : ∀ m, WalkLen g start current m → lab current ≤ m := by
          intro m hw
          rcases walk_frontier inv m current hw with ⟨_, h⟩ | ⟨y, hy, hylab⟩
          · exact h
          · rcases List.mem_cons.mp hy with rfl | hy
            · exact hylab
            · exact le_trans ((List.pairwise_cons.mp inv.queueMono).1 y hy) hylab
        refine ⟨by simp, ?_, ?_⟩
        · intro path h
          have hpath : path = l ++ [current] := (BfsOut.found.inj h).symm
          subst hpath
          refine ⟨hchain, hhead, List.getLast?_concat _, lab current, ?_,
            inv.reach current hev, hmin⟩
          simp [hlen]
        · intro h
          exact absurd h (by simp)
      · have hres : bfsLoop g start endT (fuel + 1) (current :: qrest) v p =
            bfsLoop g start endT fuel
              (bfsVisit current (adjOf g current) qrest v p).1
              (bfsVisit current (adjOf g current) qrest v p).2.1
              (bfsVisit current (adjOf g current) qrest v p).2.2 := by
          rw [bfsLoop, if_neg hce]
        rw [hres]
        have hmid := midInv_entry inv hce
        obtain ⟨lab', hfin, hphi⟩ :=
          bfsVisit_inv (adjOf g current) qrest v p lab hmid
        have hinv' : ∃ lab'', BfsInv g start endT
            (bfsVisit current (adjOf g current) qrest v p).1
            (bfsVisit current (adjOf g current) qrest v p).2.1
            (bfsVisit current (adjOf g current) qrest v p).2.2 lab'' :=
          ⟨lab', midInv_exit hfin⟩
        have hbound' : (bfsVisit current (adjOf g current) qrest v p).1.length +
            unvisCount g (bfsVisit current (adjOf g current) qrest v p).2.1 < fuel := by
          have : (current :: qrest).length = qrest.length + 1 := rfl
          omega
        exact ih _ _ _ hinv' hbound'

theorem bfsInv_init (g : Graph) (start endT : String) :
    BfsInv g start endT [start] [start] [] (fun _ => 0) := by
  refine ⟨List.mem_singleton.mpr rfl, rfl, ?_, List.nodup_singleton _, ?_, ?_, ?_,
    List.pairwise_singleton _ _, ?_, ?_, ?_, ?_⟩
  · intro x hx
    exact hx
  · intro x hx
    simp at hx
    subst hx
    exact WalkLen.refl x
  · intro x hx hxs
    simp at hx
    exact absurd hx hxs
  · intro u hu hq w hadj
    simp at hu
    subst hu
    exact absurd (List.mem_singleton.mpr rfl) hq
  · intro x _ y _
    omega
  · intro u hu hq y hy
    simp at hu
    subst hu
    exact absurd (List.mem_singleton.mpr rfl) hq
  · by_cases h : endT = start
    · right
      simp [h]
    · left
      simp [h]
  · intro x hx
    simp at hx
    subst hx
    simp

theorem bfsShortestPath_spec (g : Graph) (start endT : String) :
    (bfsShortestPath g start endT ≠ .stuck) ∧
    (∀ path, bfsShortestPath g start endT = .found path →
      List.Chain' (Adj g) path ∧ path.head? = some start ∧
      path.getLast? = some endT ∧
      ∃ n, path.length = n + 1 ∧ WalkLen g start endT n ∧
        ∀ m, WalkLen g start endT m → n ≤ m) ∧
    (bfsShortestPath g start endT = .exhausted → ∀ m, ¬ WalkLen g start endT m) := by
  have hb : [start].length + unvisCount g [start] < (candList g).length + 2 := by
    have := List.countP_le_length (l := candList g)
      (p := fun c => decide (c ∉ [start]))
    unfold unvisCount
    simp only [List.length_singleton]
    omega
  exact bfsLoop_spec ((candList g).length + 2) [start] [start] []
    ⟨fun _ => 0, bfsInv_init g start endT⟩ hb

/-! ## C1 and C4: FindJoinPath -/

theorem pathToJoins_length (g : Graph) :
    ∀ l : List String, (pathToJoins g l).length = l.length - 1 := by
  intro l
  match l with
  | [] => rfl
  | [a] => rfl
  | a :: b :: rest =>
    show ((alookup b (adjOf g a)).getD ⟨"", "", ""⟩ :: pathToJoins g (b :: rest)).length = _
    have := pathToJoins_length g (b :: rest)
    simp only [List.length_cons] at *
    omega

theorem pathToJoins_joinSeq (g : Graph)
    (hft : ∀ x y jj, alookup y (adjOf g x) = some jj → jj.From = x ∧ jj.To = y) :
    ∀ (l : List String) (a b : String), List.Chain' (Adj g) l →
      l.head? = some a → l.getLast? = some b →
      JoinSeqPath g a b (pathToJoins g l) := by
  intro l
  induction l with
  | nil =>
    intro a b _ hh _
    simp at hh
  | cons x t ih =>
    intro a b hc hh hl
    have hax : x = a := by simpa using hh
    subst hax
    cases t with
    | nil =>
      have hab : x = b := by simpa using hl
      subst hab
      exact rfl
    | cons y rest =>
      have hadj : Adj g x y := (List.chain'_cons.mp hc).1
      obtain ⟨jj, hjj⟩ := (adj_iff_lookup g x y).mp hadj
      obtain ⟨hfrom, hto⟩ := hft x y jj hjj
      have hl' : (y :: rest).getLast? = some b := by
        simpa [List.getLast?_cons_cons] using hl
      have hrec := ih y b (List.chain'_cons.mp hc).2 rfl hl'
      show JoinSeqPath g x b ((alookup y (adjOf g x)).getD ⟨"", "", ""⟩ :: pathToJoins g (y :: rest))
      rw [hjj]
      show jj.From = x ∧ alookup jj.To (adjOf g x) = some jj ∧ JoinSeqPath g jj.To b _
      refine ⟨hfrom, ?_, ?_⟩
      · rw [hto]
        exact hjj
      · rw [hto]
        exact hrec

theorem pathToJoins_stored (g : Graph) :
    ∀ l : List String, List.Chain' (Adj g) l →
      ∀ jj ∈ pathToJoins g l, ∃ x y, alookup y (adjOf g x) = some jj := by
  intro l
  induction l with
  | nil => intro _ jj hjj; simp [pathToJoins] at hjj
  | cons x t ih =>
    intro hc jj hjj
    cases t with
    | nil => simp [pathToJoins] at hjj
    | cons y rest =>
      have hadj : Adj g x y := (List.chain'_cons.mp hc).1
      obtain ⟨j0, hj0⟩ := (adj_iff_lookup g x y).mp hadj
      have hstep : pathToJoins g (x :: y :: rest) =
          (alookup y (adjOf g x)).getD ⟨"", "", ""⟩ :: pathToJoins g (y :: rest) := rfl
      rw [hstep, hj0] at hjj
      rcases List.mem_cons.mp hjj with rfl | hjj
    -- head: the stored edge itself
      · exact ⟨x, y, hj0⟩
      · exact ih (List.chain'_cons.mp hc).2 jj hjj

theorem findJoinPath_never_panics (g : Graph) (a b : String) :
    FindJoinPath g a b ≠ .panicked := by
  unfold FindJoinPath
  by_cases hab : a = b
  · simp [hab]
  · rw [if_neg hab]
    by_cases h1 : (alookup a g).isNone
    · simp [h1]
    · rw [if_neg h1]
      by_cases h2 : (alookup b g).isNone
      · simp [h2]
      · rw [if_neg h2]
        cases hres : bfsShortestPath g a b with
        | found path => simp
        | exhausted => simp
        | stuck => exact absurd hres (bfsShortestPath_spec g a b).1

theorem findJoinPath_ok_stored {g : Graph} {a b : String} {js : List Join}
    (h : FindJoinPath g a b = .ok js) :
    ∀ jj ∈ js, ∃ x y, alookup y (adjOf g x) = some jj := by
  unfold FindJoinPath at h
  by_cases hab : a = b
  · rw [if_pos hab] at h
    have : js = [] := (GoResult.ok.inj h).symm
    subst this
    intro jj hjj
    simp at hjj
  · rw [if_neg hab] at h
    by_cases h1 : (alookup a g).isNone
    · rw [if_pos h1] at h
      exact absurd h (by simp)
    · rw [if_neg h1] at h
      by_cases h2 : (alookup b g).isNone
      · rw [if_pos h2] at h
        exact absurd h (by simp)
      · rw [if_neg h2] at h
        cases hres : bfsShortestPath g a b with
        | found path =>
          rw [hres] at h
          have hjs : js = pathToJoins g path := (GoResult.ok.inj h).symm
          subst hjs
          obtain ⟨hchain, _, _, _⟩ := (bfsShortestPath_spec g a b).2.1 path hres
          exact pathToJoins_stored g path hchain
        | exhausted =>
          rw [hres] at h
          exact absurd h (by simp)
        | stuck =>
          exact absurd hres (bfsShortestPath_spec g a b).1

theorem build_fromTo (fields : List FieldDef) :
    ∀ a b j, alookup b (adjOf (buildRelationshipGraph fields) a) = some j →
      j.From = a ∧ j.To = b := by
  intro a b j h
  rw [buildRelationshipGraph, buildGraph_lookup] at h
  cases hl : lastDecl fields a b with
  | none =>
    rw [hl] at h
    simp [adjOf, alookup] at h
  | some f =>
    rw [hl] at h
    have hj := (Option.some.inj h).symm
    subst hj
    exact ⟨rfl, rfl⟩

/-- C1: for a graph built from a catalog and two tables present in it and
connected by at least one walk, `FindJoinPath` succeeds and returns a sequence
of stored graph edges linking `fromT` to `toT` whose length is the
graph-theoretic shortest distance in edge count: it is realised by a walk and
no shorter walk exists. -/
theorem FindJoinPath_shortest (fields : List FieldDef) (fromT toT : String)
    (hfrom : (alookup fromT (buildRelationshipGraph fields)).isSome = true)
    (hto : (alookup toT (buildRelationshipGraph fields)).isSome = true)
    (hconn : ∃ n, WalkLen (buildRelationshipGraph fields) fromT toT n) :
    ∃ joins, FindJoinPath (buildRelationshipGraph fields) fromT toT = .ok joins ∧
      JoinSeqPath (buildRelationshipGraph fields) fromT toT joins ∧
      WalkLen (buildRelationshipGraph fields) fromT toT joins.length ∧
      (∀ m, WalkLen (buildRelationshipGraph fields) fromT toT m →
        joins.length ≤ m) := by
  set g := buildRelationshipGraph fields with hg
  by_cases hab : fromT = toT
  · subst hab
    refine ⟨[], ?_, rfl, WalkLen.refl _, fun m _ => Nat.zero_le m⟩
    unfold FindJoinPath
    simp
  · obtain ⟨va, hva⟩ := Option.isSome_iff_exists.mp hfrom
    obtain ⟨vb, hvb⟩ := Option.isSome_iff_exists.mp hto
    have h1 : ¬((alookup fromT g).isNone = true) := by simp [hva]
    have h2 : ¬((alookup toT g).isNone = true) := by simp [hvb]
    cases hres : bfsShortestPath g fromT toT with
    | stuck => exact absurd hres (bfsShortestPath_spec g fromT toT).1
    | exhausted =>
      obtain ⟨n, hn⟩ := hconn
      exact absurd hn ((bfsShortestPath_spec g fromT toT).2.2 hres n)
    | found path =>
      obtain ⟨hchain, hhead, hlast, n, hlen, hwalk, hmin⟩ :=
        (bfsShortestPath_spec g fromT toT).2.1 path hres
      refine ⟨pathToJoins g path, ?_, ?_, ?_, ?_⟩
      · unfold FindJoinPath
        rw [if_neg hab, if_neg h1, if_neg h2, hres]
      · exact pathToJoins_joinSeq g (build_fromTo fields) path fromT toT hchain hhead hlast
      · have : (pathToJoins g path).length = n := by
          rw [pathToJoins_length, hlen]
          omega
        rw [this]
        exact hwalk
      · intro m hm
        have : (pathToJoins g path).length = n := by
          rw [pathToJoins_length, hlen]
          omega
        rw [this]
        exact hmin m hm

/-- Witness for C1: a two-table catalog with one foreign-key declaration. -/
theorem FindJoinPath_shortest_witness :
    ∃ joins, FindJoinPath
        (buildRelationshipGraph [⟨"x", "b", "", "", "d", "", "", "a", "k"⟩]) "a" "b" =
        .ok joins ∧
      JoinSeqPath (buildRelationshipGraph [⟨"x", "b", "", "", "d", "", "", "a", "k"⟩])
        "a" "b" joins ∧
      WalkLen (buildRelationshipGraph [⟨"x", "b", "", "", "d", "", "", "a", "k"⟩])
        "a" "b" joins.length ∧
      (∀ m, WalkLen (buildRelationshipGraph [⟨"x", "b", "", "", "d", "", "", "a", "k"⟩])
        "a" "b" m → joins.length ≤ m) :=
  FindJoinPath_shortest [⟨"x", "b", "", "", "d", "", "", "a", "k"⟩] "a" "b"
    (by decide) (by decide)
    ⟨1, WalkLen.snoc (WalkLen.refl "a") (by decide)⟩

/-- C4 counterexample: with `fromTable = toTable` and the table absent from
the graph, `FindJoinPath` returns an empty sequence with no error, although
the claim requires a NotFound failure whenever either table is absent. -/
theorem FindJoinPath_absent_same_ok :
    FindJoinPath ([] : Graph) "x" "x" = .ok [] := by decide

/-- C4 (amended): `FindJoinPath(g, A, A)` returns an empty sequence with no
error for *any* table `A` (the equality short-circuit precedes the presence
check); when the two tables are distinct, an absent table yields the NotFound
error naming the missing table (`fromTable` checked first), and two present
but unconnected tables yield the NoPathFound error naming both. -/
theorem FindJoinPath_error_spec (g : Graph) (a b : String) :
    (FindJoinPath g a a = .ok []) ∧
    (a ≠ b → alookup a g = none →
      FindJoinPath g a b =
        .goError ("table " ++ a ++ " not found in relationship graph")) ∧
    (a ≠ b → (alookup a g).isSome = true → alookup b g = none →
      FindJoinPath g a b =
        .goError ("table " ++ b ++ " not found in relationship graph")) ∧
    (a ≠ b → (alookup a g).isSome = true → (alookup b g).isSome = true →
      (∀ m, ¬ WalkLen g a b m) →
      FindJoinPath g a b =
        .goError ("no join path found between " ++ a ++ " and " ++ b)) := by
  refine ⟨?_, ?_, ?_, ?_⟩
  · unfold FindJoinPath
    simp
  · intro hab h1
    unfold FindJoinPath
    rw [if_neg hab]
    simp [h1]
  · intro hab h1 h2
    obtain ⟨va, hva⟩ := Option.isSome_iff_exists.mp h1
    unfold FindJoinPath
    rw [if_neg hab]
    simp [hva, h2]
  · intro hab h1 h2 hnw
    obtain ⟨va, hva⟩ := Option.isSome_iff_exists.mp h1
    obtain ⟨vb, hvb⟩ := Option.isSome_iff_exists.mp h2
    have hn1 : ¬((alookup a g).isNone = true) := by simp [hva]
    have hn2 : ¬((alookup b g).isNone = true) := by simp [hvb]
    unfold FindJoinPath
    rw [if_neg hab, if_neg hn1, if_neg hn2]
    cases hres : bfsShortestPath g a b with
    | stuck => exact absurd hres (bfsShortestPath_spec g a b).1
    | exhausted => rfl
    | found path =>
      obtain ⟨_, _, _, n, _, hwalk, _⟩ := (bfsShortestPath_spec g a b).2.1 path hres
      exact absurd hwalk (hnw n)

/-- Witness for the amended C4 at a concrete absent table. -/
theorem FindJoinPath_error_spec_witness :
    FindJoinPath ([] : Graph) "x" "y" =
      .goError ("table " ++ "x" ++ " not found in relationship graph") :=
  (FindJoinPath_error_spec [] "x" "y").2.1 (by decide) rfl

/-! ## C6, C7, C8, C10: SQL assembly -/

theorem mem_of_getLastQ {α : Type} : ∀ {l : List α} {a : α}, l.getLast? = some a → a ∈ l := by
  intro l
  induction l with
  | nil => intro a h; simp at h
  | cons x t ih =>
    intro a h
    cases t with
    | nil =>
      simp at h
      subst h
      exact List.mem_singleton.mpr rfl
    | cons y t' =>
      rw [List.getLast?_cons_cons] at h
      exact List.mem_cons_of_mem _ (ih h)

theorem lastCondJoin_sound {joins : List Join} {c : String} {j : Join}
    (h : lastCondJoin joins c = some j) : j ∈ joins ∧ j.Condition = c := by
  unfold lastCondJoin at h
  have hmem := mem_of_getLastQ h
  have := List.mem_filter.mp hmem
  refine ⟨this.1, ?_⟩
  simpa using this.2

theorem lastCondJoin_isSome {joins : List Join} {c : String}
    (h : c ∈ joins.map (fun j => j.Condition)) :
    ∃ j, lastCondJoin joins c = some j := by
  obtain ⟨j0, hj0, hc⟩ := List.mem_map.mp h
  have hfil : j0 ∈ joins.filter (fun j' => j'.Condition = c) :=
    List.mem_filter.mpr ⟨hj0, by simp [hc]⟩
  have hne : joins.filter (fun j' => j'.Condition = c) ≠ [] :=
    List.ne_nil_of_mem hfil
  unfold lastCondJoin
  exact Option.isSome_iff_exists.mp (List.getLast?_isSome.mpr hne)

theorem dedup_mem {joins : List Join} {condOrder : List String} {j : Join}
    (h : j ∈ deduplicateJoins joins condOrder) : j ∈ joins := by
  unfold deduplicateJoins at h
  by_cases hlen : joins.length ≤ 1
  · rwa [if_pos hlen] at h
  · rw [if_neg hlen] at h
    obtain ⟨c, _, hc⟩ := List.mem_filterMap.mp h
    exact (lastCondJoin_sound hc).1

theorem emitJoins_sublist (seen : List String) :
    ∀ L : List Join, List.Sublist (emitJoins seen L) L := by
  intro L
  induction L generalizing seen with
  | nil => exact List.Sublist.refl _
  | cons j rest ih =>
    show List.Sublist (if j.To ∈ seen then emitJoins seen rest
      else j :: emitJoins (j.To :: seen) rest) (j :: rest)
    by_cases h : j.To ∈ seen
    · rw [if_pos h]
      exact List.Sublist.cons _ (ih seen)
    · rw [if_neg h]
      exact List.Sublist.cons₂ _ (ih (j.To :: seen))

theorem joinClauseLoop_emit (seen : List String) :
    ∀ L : List Join, (∀ j ∈ L, j.To ≠ "") →
      joinClauseLoop seen L = some ((emitJoins seen L).map
        (fun j => "JOIN " ++ j.To ++ " " ++ j.To.take 1 ++ " ON " ++ j.Condition)) := by
  intro L
  induction L generalizing seen with
  | nil => intro _; rfl
  | cons j rest ih =>
    intro hne
    have hjto : j.To ≠ "" := hne j (List.mem_cons_self _ _)
    have hrest : ∀ j' ∈ rest, j'.To ≠ "" := fun j' hj' => hne j' (List.mem_cons_of_mem _ hj')
    show (if j.To ∈ seen then joinClauseLoop seen rest else _) = _
    by_cases h : j.To ∈ seen
    · rw [if_pos h]
      have he : emitJoins seen (j :: rest) = emitJoins seen rest := by
        show (if j.To ∈ seen then emitJoins seen rest else _) = _
        rw [if_pos h]
      rw [he]
      exact ih seen hrest
    · rw [if_neg h]
      have hslice : slice01 j.To = some (j.To.take 1) := by
        unfold slice01
        rw [if_neg (by simpa [String.isEmpty_iff] using hjto)]
      rw [hslice, ih (j.To :: seen) hrest]
      have he : emitJoins seen (j :: rest) = j :: emitJoins (j.To :: seen) rest := by
        show (if j.To ∈ seen then _ else j :: emitJoins (j.To :: seen) rest) = _
        rw [if_neg h]
      rw [he]
      rfl

theorem joinClauseLoop_inv (seen : List String) :
    ∀ (L : List Join) (cs : List String), joinClauseLoop seen L = some cs →
      cs = (emitJoins seen L).map
        (fun j => "JOIN " ++ j.To ++ " " ++ j.To.take 1 ++ " ON " ++ j.Condition) := by
  intro L
  induction L generalizing seen with
  | nil =>
    intro cs h
    have : cs = [] := (Option.some.inj h).symm
    subst this
    rfl
  | cons j rest ih =>
    intro cs h
    rw [show joinClauseLoop seen (j :: rest) =
        (if j.To ∈ seen then joinClauseLoop seen rest else
          match slice01 j.To with
          | none => none
          | some al =>
            match joinClauseLoop (j.To :: seen) rest with
            | none => none
            | some cs => some (("JOIN " ++ j.To ++ " " ++ al ++ " ON " ++ j.Condition) :: cs))
      from rfl] at h
    by_cases hs : j.To ∈ seen
    · rw [if_pos hs] at h
      have he : emitJoins seen (j :: rest) = emitJoins seen rest := by
        show (if j.To ∈ seen then emitJoins seen rest else _) = _
        rw [if_pos hs]
      rw [he]
      exact ih seen cs h
    · rw [if_neg hs] at h
      cases hsl : slice01 j.To with
      | none => rw [hsl] at h; simp at h
      | some al =>
        rw [hsl] at h
        cases hloop : joinClauseLoop (j.To :: seen) rest with
        | none => rw [hloop] at h; simp at h
        | some cs' =>
          rw [hloop] at h
          have hcs : cs = ("JOIN " ++ j.To ++ " " ++ al ++ " ON " ++ j.Condition) :: cs' :=
            (Option.some.inj h).symm
          have hal : al = j.To.take 1 := by
            unfold slice01 at hsl
            by_cases he : j.To.isEmpty
            · rw [if_pos he] at hsl; simp at hsl
            · rw [if_neg he] at hsl
              exact (Option.some.inj hsl).symm
          have he : emitJoins seen (j :: rest) = j :: emitJoins (j.To :: seen) rest := by
            show (if j.To ∈ seen then _ else j :: emitJoins (j.To :: seen) rest) = _
            rw [if_neg hs]
          rw [he, hcs, hal, ih (j.To :: seen) cs' hloop]
          rfl

theorem findAllJoins_never_panics (g : Graph) (t0 : String) :
    ∀ ts : List String, findAllJoins g t0 ts ≠ .panicked := by
  intro ts
  induction ts with
  | nil => simp [findAllJoins]
  | cons t ts ih =>
    show (match FindJoinPath g t0 t with
      | .ok js =>
        match findAllJoins g t0 ts with
        | .ok rest => GoResult.ok (js ++ rest)
        | r => r
      | .goError e => .goError ("failed to find join path: " ++ e)
      | .panicked => .panicked) ≠ .panicked
    cases hfp : FindJoinPath g t0 t with
    | ok js =>
      cases hall : findAllJoins g t0 ts with
      | ok rest => simp
      | goError e => simp
      | panicked => exact absurd hall ih
    | goError e => simp
    | panicked => exact absurd hfp (findJoinPath_never_panics g t0 t)

theorem findAllJoins_ok_stored (g : Graph) (t0 : String) :
    ∀ (ts : List String) (js : List Join), findAllJoins g t0 ts = .ok js →
      ∀ jj ∈ js, ∃ x y, alookup y (adjOf g x) = some jj := by
  intro ts
  induction ts with
  | nil =>
    intro js h jj hjj
    have : js = [] := (GoResult.ok.inj h).symm
    subst this
    simp at hjj
  | cons t ts ih =>
    intro js h jj hjj
    rw [show findAllJoins g t0 (t :: ts) =
      (match FindJoinPath g t0 t with
       | .ok js =>
         match findAllJoins g t0 ts with
         | .ok rest => GoResult.ok (js ++ rest)
         | r => r
       | .goError e => .goError ("failed to find join path: " ++ e)
       | .panicked => .panicked) from rfl] at h
    cases hfp : FindJoinPath g t0 t with
    | ok js1 =>
      rw [hfp] at h
      cases hall : findAllJoins g t0 ts with
      | ok rest =>
        rw [hall] at h
        have : js = js1 ++ rest := (GoResult.ok.inj h).symm
        subst this
        rcases List.mem_append.mp hjj with hm | hm
        · exact findJoinPath_ok_stored hfp jj hm
        · exact ih rest hall jj hm
      | goError e => rw [hall] at h; exact absurd h (by simp)
      | panicked => rw [hall] at h; exact absurd h (by simp)
    | goError e => rw [hfp] at h; exact absurd h (by simp)
    | panicked => rw [hfp] at h; exact absurd h (by simp)

theorem nodup_mem_singleton {c : String} {order : List String}
    (hnd : order.Nodup) (hm : ∀ x, x ∈ order ↔ x = c) : order = [c] := by
  cases order with
  | nil =>
    exact absurd ((hm c).mpr rfl) (by simp)
  | cons d rest =>
    have hdc : d = c := (hm d).mp (List.mem_cons_self _ _)
    subst hdc
    have hrest : rest = [] := by
      cases rest with
      | nil => rfl
      | cons e rest' =>
        have hec : e = d := (hm e).mp (List.mem_cons_of_mem _ (List.mem_cons_self _ _))
        subst hec
        exact absurd (List.mem_cons_self _ _) (List.nodup_cons.mp hnd).1
    rw [hrest]

theorem filterMap_map_of_total {α β : Type} (f : α → Option β) (gg : β → α)
    (order : List α) (h : ∀ c ∈ order, ∃ j, f c = some j ∧ gg j = c) :
    (order.filterMap f).map gg = order := by
  induction order with
  | nil => rfl
  | cons c rest ih =>
    obtain ⟨j, hj, hgj⟩ := h c (List.mem_cons_self _ _)
    rw [List.filterMap_cons, hj]
    simp only [List.map_cons]
    rw [hgj, ih (fun c' hc' => h c' (List.mem_cons_of_mem _ hc'))]

/-- C6 counterexample: two collected edges with the same condition string and
opposite directions; the deduplicated result keeps the *second* (last)
occurrence's direction, not the first's. -/
theorem deduplicateJoins_last_wins_cex :
    deduplicateJoins [⟨"A", "B", "c1"⟩, ⟨"B", "A", "c1"⟩] ["c1"] = [⟨"B", "A", "c1"⟩] ∧
    (⟨"B", "A", "c1"⟩ : Join) ≠ ⟨"A", "B", "c1"⟩ := by
  constructor
  · rfl
  · decide

/-- C6 (amended): the Join Planner unions the per-target edge sequences and
deduplicates by condition string; for each distinct condition the *last*
collected occurrence's direction wins, and the deduplicated sequence contains
exactly one edge per distinct condition, in the (unspecified) map-range
enumeration order; the SQL assembler then emits JOIN clauses over the
deduplicated edges in that order, skipping edges whose target table was
already introduced. -/
theorem deduplicateJoins_spec (joins : List Join) (condOrder : List String)
    (hvalid : validEnum (joins.map (fun j => j.Condition)) condOrder) :
    ((deduplicateJoins joins condOrder).map (fun j => j.Condition) = condOrder) ∧
    (∀ j ∈ deduplicateJoins joins condOrder,
      (joins.filter (fun j' => j'.Condition = j.Condition)).getLast? = some j ∧ j ∈ joins) ∧
    (∀ (seen : List String) (L : List Join), (∀ j ∈ L, j.To ≠ "") →
      joinClauseLoop seen L = some ((emitJoins seen L).map
        (fun j => "JOIN " ++ j.To ++ " " ++ j.To.take 1 ++ " ON " ++ j.Condition)) ∧
      List.Sublist (emitJoins seen L) L) := by
  obtain ⟨hnd, hmem⟩ := hvalid
  refine ⟨?_, ?_, ?_⟩
  · unfold deduplicateJoins
    by_cases hlen : joins.length ≤ 1
    · rw [if_pos hlen]
      cases joins with
      | nil =>
        have : condOrder = [] := by
          apply List.eq_nil_iff_forall_not_mem.mpr
          intro x hx
          have := (hmem x).mp hx
          simp at this
        rw [this]
        rfl
      | cons j0 rest =>
        have hrest : rest = [] := by
          cases rest with
          | nil => rfl
          | cons _ _ => simp at hlen
        subst hrest
        have : condOrder = [j0.Condition] := by
          apply nodup_mem_singleton hnd
          intro x
          rw [hmem x]
          simp
        rw [this]
        rfl
    · rw [if_neg hlen]
      apply filterMap_map_of_total
      intro c hc
      obtain ⟨j, hj⟩ := lastCondJoin_isSome ((hmem c).mp hc)
      exact ⟨j, hj, (lastCondJoin_sound hj).2⟩
  · intro j hj
    have hmemj : j ∈ joins := dedup_mem hj
    unfold deduplicateJoins at hj
    by_cases hlen : joins.length ≤ 1
    · rw [if_pos hlen] at hj
      cases joins with
      | nil => simp at hj
      | cons j0 rest =>
        have hrest : rest = [] := by
          cases rest with
          | nil => rfl
          | cons _ _ => simp at hlen
        subst hrest
        have : j = j0 := by simpa using hj
        subst this
        refine ⟨?_, hmemj⟩
        simp
    · rw [if_neg hlen] at hj
      obtain ⟨c, _, hc⟩ := List.mem_filterMap.mp hj
      obtain ⟨_, hcond⟩ := lastCondJoin_sound hc
      unfold lastCondJoin at hc
      rw [← hcond] at hc
      exact ⟨hc, hmemj⟩
  · intro seen L hne
    exact ⟨joinClauseLoop_emit seen L hne, emitJoins_sublist seen L⟩

/-- Witness for the amended C6 at a concrete duplicated edge list. -/
theorem deduplicateJoins_spec_witness :
    (deduplicateJoins [⟨"A", "B", "c1"⟩, ⟨"B", "A", "c1"⟩] ["c1"]).map
      (fun j => j.Condition) = ["c1"] :=
  (deduplicateJoins_spec [⟨"A", "B", "c1"⟩, ⟨"B", "A", "c1"⟩] ["c1"]
    ⟨List.nodup_singleton _, by intro x; simp⟩).1

/-- C7: the required-table set of `buildSQLQuery` is collected by ranging over
a Go map, whose iteration order is randomized; both `["b", "a"]` and
`["a", "b"]` are admissible enumerations of the same two-table match list, and
they produce different queries — under the second, the FROM table is `"a"`,
not the first-encountered table `"b"`.  The claimed deterministic
first-encountered order does not hold on the code. -/
theorem buildSQLQuery_order_dependent :
    validEnum ([⟨"x", "b", "db", 50⟩, ⟨"y", "a", "da", 50⟩].map
      (fun m : FieldMatch => m.TableName)) ["b", "a"] ∧
    validEnum ([⟨"x", "b", "db", 50⟩, ⟨"y", "a", "da", 50⟩].map
      (fun m : FieldMatch => m.TableName)) ["a", "b"] ∧
    buildSQLQuery (buildRelationshipGraph [⟨"x", "b", "", "", "d", "", "", "a", "k"⟩])
      [⟨"x", "b", "db", 50⟩, ⟨"y", "a", "da", 50⟩] "SELECT" false 0 ["b", "a"]
      ["b.x = a.k"] =
      .ok ("SELECT b.x, a.y FROM b b JOIN a a ON b.x = a.k", [⟨"b", "a", "b.x = a.k"⟩]) ∧
    buildSQLQuery (buildRelationshipGraph [⟨"x", "b", "", "", "d", "", "", "a", "k"⟩])
      [⟨"x", "b", "db", 50⟩, ⟨"y", "a", "da", 50⟩] "SELECT" false 0 ["a", "b"]
      ["b.x = a.k"] =
      .ok ("SELECT b.x, a.y FROM a a JOIN b b ON b.x = a.k", [⟨"a", "b", "b.x = a.k"⟩]) ∧
    ("SELECT b.x, a.y FROM b b JOIN a a ON b.x = a.k" ≠
      "SELECT b.x, a.y FROM a a JOIN b b ON b.x = a.k") := by
  refine ⟨⟨by decide, ?_⟩, ⟨by decide, ?_⟩, ?_, ?_, by decide⟩
  · intro x
    simp
    try tauto
  · intro x
    simp
    try tauto
  · rfl
  · rfl

theorem strAppend_empty (s : String) : s ++ "" = s := by
  cases s with
  | mk data =>
    show String.mk (data ++ []) = String.mk data
    rw [List.append_nil]

theorem strAppend_assoc (a b c : String) : a ++ b ++ c = a ++ (b ++ c) := by
  cases a with
  | mk da =>
    cases b with
    | mk db =>
      cases c with
      | mk dc =>
        show String.mk (da ++ db ++ dc) = String.mk (da ++ (db ++ dc))
        rw [List.append_assoc]

theorem planJoins_never_panics (g : Graph) (t0 : String) (trest condOrder : List String) :
    planJoins g t0 trest condOrder ≠ .panicked := by
  unfold planJoins
  by_cases he : trest.isEmpty
  · simp [he]
  · rw [if_neg he]
    cases hall : findAllJoins g t0 trest with
    | ok aj => simp
    | goError e => simp
    | panicked => exact absurd hall (findAllJoins_never_panics g t0 trest)

theorem planJoins_ok_stored {g : Graph} {t0 : String} {trest condOrder : List String}
    {js : List Join} (h : planJoins g t0 trest condOrder = .ok js) :
    ∀ jj ∈ js, ∃ x y, alookup y (adjOf g x) = some jj := by
  unfold planJoins at h
  by_cases he : trest.isEmpty
  · rw [if_pos he] at h
    have : js = [] := (GoResult.ok.inj h).symm
    subst this
    intro jj hjj
    simp at hjj
  · rw [if_neg he] at h
    cases hall : findAllJoins g t0 trest with
    | ok aj =>
      rw [hall] at h
      have : js = deduplicateJoins aj condOrder := (GoResult.ok.inj h).symm
      subst this
      intro jj hjj
      exact findAllJoins_ok_stored g t0 trest aj hall jj (dedup_mem hjj)
    | goError e => rw [hall] at h; exact absurd h (by simp)
    | panicked => rw [hall] at h; exact absurd h (by simp)

theorem assembleQuery_ok {m0 : FieldMatch} {ms : List FieldMatch} {queryType : String}
    {distinct : Bool} {limit : Int} {t0 : String} {allJoins : List Join}
    {q : String} {js : List Join}
    (hok : assembleQuery m0 ms queryType distinct limit t0 allJoins = .ok (q, js)) :
    js = allJoins ∧
    ∃ rest2, q = "SELECT " ++ selectClauseOf m0 ms queryType distinct ++ " FROM " ++
      (t0 ++ " " ++ t0.take 1) ++ rest2 ∧
    joinClauseLoop [t0] allJoins = some ((emitJoins [t0] allJoins).map
      (fun j => "JOIN " ++ j.To ++ " " ++ j.To.take 1 ++ " ON " ++ j.Condition)) := by
  unfold assembleQuery at hok
  cases hsl : slice01 t0 with
  | none => rw [hsl] at hok; exact absurd hok (by simp)
  | some al =>
    rw [hsl] at hok
    have hal : al = t0.take 1 := by
      unfold slice01 at hsl
      by_cases he : t0.isEmpty
      · rw [if_pos he] at hsl; simp at hsl
      · rw [if_neg he] at hsl
        exact (Option.some.inj hsl).symm
    cases hlp : joinClauseLoop [t0] allJoins with
    | none => rw [hlp] at hok; exact absurd hok (by simp)
    | some cs =>
      rw [hlp] at hok
      have hcs : cs = (emitJoins [t0] allJoins).map
          (fun j => "JOIN " ++ j.To ++ " " ++ j.To.take 1 ++ " ON " ++ j.Condition) :=
        joinClauseLoop_inv [t0] allJoins cs hlp
      have hpair := Prod.mk.injEq .. ▸ (GoResult.ok.inj hok).symm
      obtain ⟨hq, hjs⟩ : _ ∧ js = allJoins := Prod.mk.inj (GoResult.ok.inj hok).symm
      refine ⟨hjs, ?_⟩
      subst hal
      set q1 := "SELECT " ++ selectClauseOf m0 ms queryType distinct ++ " FROM " ++
        (t0 ++ " " ++ t0.take 1) with hq1
      set gb := (if queryType = "GROUP" then
        "GROUP BY " ++ m0.TableName ++ "." ++ m0.ColumnName else "") with hgb
      set lc := (if limit > 0 then "LIMIT " ++ toString limit else "") with hlc
      set q2 := (if cs.length > 0 then q1 ++ " " ++ String.intercalate " " cs else q1)
        with hq2
      set q3 := (if gb ≠ "" then q2 ++ " " ++ gb else q2) with hq3
      set q4 := (if lc ≠ "" then q3 ++ " " ++ lc else q3) with hq4
      have hq' : q = q4 := by rw [← hq]
      have e2 : q2 = q1 ++ (if cs.length > 0 then " " ++ String.intercalate " " cs
          else "") := by
        rw [hq2]
        split
        · rw [strAppend_assoc]
        · rw [strAppend_empty]
      have e3 : q3 = q2 ++ (if gb ≠ "" then " " ++ gb else "") := by
        rw [hq3]
        split
        · rw [strAppend_assoc]
        · rw [strAppend_empty]
      have e4 : q4 = q3 ++ (if lc ≠ "" then " " ++ lc else "") := by
        rw [hq4]
        split
        · rw [strAppend_assoc]
        · rw [strAppend_empty]
      refine ⟨(if cs.length > 0 then " " ++ String.intercalate " " cs else "") ++
        ((if gb ≠ "" then " " ++ gb else "") ++ (if lc ≠ "" then " " ++ lc else "")), ?_, ?_⟩
      · rw [hq', e4, e3, e2]
        rw [strAppend_assoc, strAppend_assoc]
      · rw [hcs]

/-- C8 counterexample: the alias is the first character of the table name with
no lower-casing: table `"Users"` is aliased `"U"`, not the lower-cased `"u"`
required by the claim. -/
theorem buildSQLQuery_alias_not_lowercased :
    buildSQLQuery ([] : Graph) [⟨"email", "Users", "d", 50⟩] "SELECT" false 0
      ["Users"] [] = .ok ("SELECT Users.email FROM Users U", []) ∧
    ("SELECT Users.email FROM Users U" : String) ≠ "SELECT Users.email FROM Users u" := by
  constructor
  · rfl
  · decide

/-- C8 (amended): for every successful `buildSQLQuery` run the FROM clause
aliases the primary table to its *first character unchanged* (no
lower-casing), and the emitted JOIN clauses alias each joined table to its
first character in the same way; alias collisions are not resolved. -/
theorem buildSQLQuery_alias_spec (g : Graph) (ms : List FieldMatch) (queryType : String)
    (distinct : Bool) (limit : Int) (tableOrder condOrder : List String) (q : String)
    (js : List Join)
    (hok : buildSQLQuery g ms queryType distinct limit tableOrder condOrder =
      .ok (q, js)) :
    ∃ t0 trest sel rest2,
      tableOrder = t0 :: trest ∧
      q = "SELECT " ++ sel ++ " FROM " ++ (t0 ++ " " ++ t0.take 1) ++ rest2 ∧
      joinClauseLoop [t0] js = some ((emitJoins [t0] js).map
        (fun j => "JOIN " ++ j.To ++ " " ++ j.To.take 1 ++ " ON " ++ j.Condition)) := by
  cases ms with
  | nil =>
    unfold buildSQLQuery at hok
    exact absurd hok (by simp)
  | cons m0 mrest =>
    cases tableOrder with
    | nil =>
      unfold buildSQLQuery at hok
      exact absurd hok (by simp)
    | cons t0 trest =>
      have hok' : (match planJoins g t0 trest condOrder with
          | GoResult.goError e => GoResult.goError e
          | GoResult.panicked => GoResult.panicked
          | GoResult.ok allJoins =>
            assembleQuery m0 (m0 :: mrest) queryType distinct limit t0 allJoins) =
          GoResult.ok (q, js) := hok
      cases hpj : planJoins g t0 trest condOrder with
      | goError e => rw [hpj] at hok'; exact absurd hok' (by simp)
      | panicked => rw [hpj] at hok'; exact absurd hok' (by simp)
      | ok allJoins =>
        rw [hpj] at hok'
        obtain ⟨hjs, rest2, hq, hloop⟩ := assembleQuery_ok hok'
        subst hjs
        exact ⟨t0, trest, selectClauseOf m0 (m0 :: mrest) queryType distinct, rest2,
          rfl, hq, hloop⟩

/-- Witness for the amended C8 at a concrete single-table query. -/
theorem buildSQLQuery_alias_spec_witness :
    ∃ t0 trest sel rest2,
      (["Users"] : List String) = t0 :: trest ∧
      ("SELECT Users.email FROM Users U" : String) =
        "SELECT " ++ sel ++ " FROM " ++ (t0 ++ " " ++ t0.take 1) ++ rest2 ∧
      joinClauseLoop [t0] ([] : List Join) = some ((emitJoins [t0] ([] : List Join)).map
        (fun j => "JOIN " ++ j.To ++ " " ++ j.To.take 1 ++ " ON " ++ j.Condition)) :=
  buildSQLQuery_alias_spec ([] : Graph) [⟨"email", "Users", "d", 50⟩] "SELECT" false 0
    ["Users"] [] "SELECT Users.email FROM Users U" [] (by rfl)

/-- C10: `buildSQLQuery` never panics when every matched field's table name is
non-empty and every join edge stored in the graph has a non-empty target
table (so no out-of-range alias slice is taken under that precondition), and
it does panic on a match list containing an empty table name. -/
theorem buildSQLQuery_panic_spec :
    (∀ (g : Graph) (ms : List FieldMatch) (queryType : String) (distinct : Bool)
        (limit : Int) (tableOrder condOrder : List String),
      validEnum (ms.map (fun m => m.TableName)) tableOrder →
      (∀ m ∈ ms, m.TableName ≠ "") →
      (∀ a adj, alookup a g = some adj → ∀ e ∈ adj, (e.2).To ≠ "") →
      buildSQLQuery g ms queryType distinct limit tableOrder condOrder ≠ .panicked) ∧
    buildSQLQuery ([] : Graph) [⟨"email", "", "d", 50⟩] "SELECT" false 0 [""] [] =
      .panicked := by
  constructor
  · intro g ms queryType distinct limit tableOrder condOrder hvalid hnames hgraph
    cases ms with
    | nil =>
      unfold buildSQLQuery
      simp
    | cons m0 mrest =>
      have h0mem : m0.TableName ∈ tableOrder := by
        apply (hvalid.2 m0.TableName).mpr
        exact List.mem_map.mpr ⟨m0, List.mem_cons_self _ _, rfl⟩
      cases tableOrder with
      | nil => simp at h0mem
      | cons t0 trest =>
        have ht0 : t0 ≠ "" := by
          have ht0mem : t0 ∈ (m0 :: mrest).map (fun m => m.TableName) :=
            (hvalid.2 t0).mp (List.mem_cons_self _ _)
          obtain ⟨m, hm, hmt⟩ := List.mem_map.mp ht0mem
          rw [← hmt]
          exact hnames m hm
        show (match planJoins g t0 trest condOrder with
          | GoResult.goError e => GoResult.goError e
          | GoResult.panicked => GoResult.panicked
          | GoResult.ok allJoins =>
            assembleQuery m0 (m0 :: mrest) queryType distinct limit t0 allJoins) ≠
          GoResult.panicked
        cases hpj : planJoins g t0 trest condOrder with
        | goError e => simp
        | panicked => exact absurd hpj (planJoins_never_panics g t0 trest condOrder)
        | ok allJoins =>
          have hjoinsne : ∀ j ∈ allJoins, j.To ≠ "" := by
            intro j hj
            obtain ⟨x, y, hxy⟩ := planJoins_ok_stored hpj j hj
            unfold adjOf at hxy
            cases hga : alookup x g with
            | none => rw [hga] at hxy; simp [alookup] at hxy
            | some adj =>
              rw [hga] at hxy
              simp at hxy
              exact hgraph x adj hga (y, j) (alookup_mem hxy)
          have hsl : slice01 t0 = some (t0.take 1) := by
            unfold slice01
            rw [if_neg (by simpa [String.isEmpty_iff] using ht0)]
          have hlp := joinClauseLoop_emit [t0] allJoins hjoinsne
          unfold assembleQuery
          cases hsl2 : slice01 t0 with
          | none =>
            rw [hsl2] at hsl
            exact absurd hsl (by simp)
          | some al =>
            cases hlp2 : joinClauseLoop [t0] allJoins with
            | none =>
              rw [hlp2] at hlp
              exact absurd hlp (by simp)
            | some cs =>
              simp only [ne_eq]
              simp
              rw [hlp2]
              simp
  · rfl

/-- Witness for C5: the single declaration `b.x -> a.k` makes `a` and `b`
adjacent in both directions. -/
theorem buildRelationshipGraph_spec_witness :
    ∃ j, alookup "a" (adjOf (buildRelationshipGraph
        [⟨"x", "b", "", "", "d", "", "", "a", "k"⟩]) "b") = some j ∧
      j.From = "b" ∧ j.To = "a" :=
  (buildRelationshipGraph_spec [⟨"x", "b", "", "", "d", "", "", "a", "k"⟩] "b" "a").2.1
    ⟨"x", "b", "", "", "d", "", "", "a", "k"⟩ (List.mem_singleton.mpr rfl) (by decide)

/-- Witness for C10: a well-formed single-table query does not panic. -/
theorem buildSQLQuery_panic_spec_witness :
    buildSQLQuery ([] : Graph) [⟨"email", "users", "d", 50⟩] "SELECT" false 0
      ["users"] [] ≠ .panicked :=
  buildSQLQuery_panic_spec.1 ([] : Graph) [⟨"email", "users", "d", 50⟩] "SELECT" false 0
    ["users"] [] ⟨List.nodup_singleton _, by intro x; simp⟩
    (by intro m hm; simp at hm; subst hm; decide)
    (by intro a adj h; simp [alookup] at h)
